import Mathlib

/-!
# vulcan-one `internal/utils`: a shallow embedding

The Go package `utils` consists of three thin wrappers around the standard
library: `StrToBigInt` (`math/big`), `LoadConfiguration` (`path/filepath`,
`os`, `encoding/json`) and `IsValidERC1155Format` (`regexp`).  The library
routines the wrappers call are embedded here as executable Lean functions
that follow the control flow of the Go implementation.

Modelling conventions.

* A Go `string` is a Lean `String`; the library routines run over the list of
  its characters.  Every byte the routines below test for (`+ - / . _ &` and
  the ASCII digits) is ASCII, and the UTF-8 encoding of a non-ASCII character
  contains no ASCII byte, so scanning characters and scanning bytes take the
  same branches.
* A `*big.Int` is an `Option Int` (`none` is the nil pointer); a `Word` is a
  `Nat` reduced modulo `2 ^ 64` wherever the Go code computes on words.
* The file system, the JSON decoder and the constant `shared.ErrUnmarshalJSON`
  are parameters of `LoadConfiguration`, collected in `Env`.
* `GetCrosschainData` and `CountElements` are exercised by `utils_test.go` but
  are not defined in `utils.go`; their definitions here follow the
  specification and say so.
-/

namespace Vulcan

/-! ## `math/big`: scanning a number in a given base -/

/-- Largest base accepted by `nat.scan` (`big.MaxBase`). -/
def MaxBase : Nat := 62

/-- Largest base with case-insensitive letters (`maxBaseSmall`). -/
def maxBaseSmall : Nat := 36

/-- Number of bits of a machine word (`_W`), here a 64-bit platform. -/
def wordBits : Nat := 64

/-- Largest word value (`_M`). -/
def wordMax : Nat := 2 ^ wordBits - 1

/-- Digit value `d1` of the character `ch`, the `switch` inside the loop of
`nat.scan`; a character that is no digit gets `MaxBase + 1`. -/
def digitVal (b : Nat) (ch : Char) : Nat :=
  if 48 ≤ ch.toNat ∧ ch.toNat ≤ 57 then ch.toNat - 48
  else if 97 ≤ ch.toNat ∧ ch.toNat ≤ 122 then ch.toNat - 97 + 10
  else if 65 ≤ ch.toNat ∧ ch.toNat ≤ 90 then
    (if b ≤ maxBaseSmall then ch.toNat - 65 + 10 else ch.toNat - 65 + maxBaseSmall)
  else MaxBase + 1

/-- The loop of `maxPow`: multiply `bn` by `b` while `bn ≤ max`. -/
def maxPowLoop (b max : Nat) : Nat → Nat → Nat → Nat × Nat
  | 0, bn, n => (bn, n)
  | fuel + 1, bn, n => if bn ≤ max then maxPowLoop b max fuel (bn * b) (n + 1) else (bn, n)

/-- Go `maxPow(b)`: the largest power `bn = b ^ n` that fits a word, with `n`.
A word has `wordBits` bits and `b ≥ 2`, so `wordBits` rounds are enough. -/
def maxPow (b : Nat) : Nat × Nat :=
  maxPowLoop b (wordMax / b) wordBits b 1

/-- Go `pow(x, n)` on words. -/
def wordPow (x n : Nat) : Nat := x ^ n % 2 ^ wordBits

/-- Local variables of the loop of `nat.scan`: the result `z`, the partial
word `di` collecting `i` digits, and the number `count` of digits seen. -/
structure ScanState where
  z : Nat
  di : Nat
  i : Nat
  count : Nat
deriving DecidableEq, Repr

/-- The digit loop of `nat.scan` for a base `b ≠ 0` with `fracOk = false`
(so neither the `.` branch nor the `_` branch is enabled).  Returns the final
state and the unread rest of the input. -/
def scanLoop (b bn n : Nat) : List Char → ScanState → ScanState × List Char
  | [], st => (st, [])
  | ch :: rest, st =>
    let d1 := digitVal b ch
    if b ≤ d1 then (st, ch :: rest)
    else
      let di := (st.di * b + d1) % 2 ^ wordBits
      let i := st.i + 1
      if i = n then scanLoop b bn n rest ⟨st.z * bn + di, 0, 0, st.count + 1⟩
      else scanLoop b bn n rest ⟨st.z, di, i, st.count + 1⟩

/-- Errors of `nat.scan` and `scanSign` that can arise for a non-zero base. -/
inductive ScanError where
  | eof
  | noDigits
deriving DecidableEq, Repr

/-- Go `nat.scan(r, base, false)` for `2 ≤ base ≤ MaxBase`: the scanned value
and the unread rest of the input, or `errNoDigits`.  (Go still returns a
result next to `errNoDigits`; `Int.scan` discards it.) -/
def natScan (input : List Char) (base : Nat) : Except ScanError (Nat × List Char) :=
  let (bn, n) := maxPow base
  let (st, rest) := scanLoop base bn n input ⟨0, 0, 0, 0⟩
  if st.count = 0 then Except.error ScanError.noDigits
  else
    let z := if 0 < st.i then st.z * wordPow base st.i + st.di else st.z
    Except.ok (z, rest)

/-- Go `scanSign`: consumes one leading `-` or `+`; fails at end of input. -/
def scanSign : List Char → Except ScanError (Bool × List Char)
  | [] => Except.error ScanError.eof
  | ch :: rest =>
    if ch = '-' then Except.ok (true, rest)
    else if ch = '+' then Except.ok (false, rest)
    else Except.ok (false, ch :: rest)

/-- Go `(*Int).scan`: sign, then magnitude; `z.neg = len(z.abs) > 0 && neg`. -/
def intScan (input : List Char) (base : Nat) : Except ScanError (Int × List Char) :=
  match scanSign input with
  | Except.error e => Except.error e
  | Except.ok (neg, rest) =>
    match natScan rest base with
    | Except.error e => Except.error e
    | Except.ok (abs, rest2) =>
      Except.ok (if 0 < abs ∧ neg = true then Int.negSucc (abs - 1) else Int.ofNat abs, rest2)

/-- Go `(*Int).SetString(s, base)` through `setFromScanner`: the whole input
must be consumed; on failure the returned pointer is nil. -/
def SetString (s : List Char) (base : Nat) : Option Int × Bool :=
  match intScan s base with
  | Except.error _ => (none, false)
  | Except.ok (z, rest) =>
    match rest with
    | [] => (some z, true)
    | _ :: _ => (none, false)

/-- `utils.StrToBigInt`. -/
def StrToBigInt (s : String) : Option Int × Bool :=
  SetString s.toList 10

/-! ## `math/big`: printing in base 10 -/

/-- Base-10 digits of `x`, most significant first, prepended to `acc`
(what `convertWords` writes after leading zeros are stripped). -/
def itoaDigits : Nat → Nat → List Char → List Char
  | 0, _, acc => acc
  | fuel + 1, x, acc =>
    if x = 0 then acc else itoaDigits fuel (x / 10) (Char.ofNat (48 + x % 10) :: acc)

/-- Go `nat.itoa(neg, 10)`. -/
def itoa (x : Nat) (neg : Bool) : List Char :=
  if x = 0 then ['0']
  else (if neg then ['-'] else []) ++ itoaDigits x x []

/-- Go `(*Int).String()` for a non-nil receiver: `x.abs.itoa(x.neg, 10)`. -/
def bigString (x : Int) : String :=
  String.mk (itoa x.natAbs (decide (x < 0)))

/-! ## Decimal numerals, in the words of the specification -/

/-- An ASCII decimal digit. -/
def isDecDigit (c : Char) : Bool := decide (48 ≤ c.toNat ∧ c.toNat ≤ 57)

/-- A non-empty run of ASCII decimal digits. -/
def isDigits (l : List Char) : Bool := !l.isEmpty && l.all isDecDigit

/-- An optional sign followed by one or more decimal digits. -/
def isSignedDecimal : List Char → Bool
  | [] => false
  | c :: rest => if c = '+' ∨ c = '-' then isDigits rest else isDigits (c :: rest)

/-- The natural number a run of decimal digits denotes. -/
def decimalValue (l : List Char) : Nat :=
  l.foldl (fun acc c => acc * 10 + (c.toNat - 48)) 0

/-- The integer a signed decimal numeral denotes. -/
def denotedInt : List Char → Int
  | [] => 0
  | c :: rest =>
    if c = '-' then - (decimalValue rest : Int)
    else if c = '+' then (decimalValue rest : Int)
    else (decimalValue (c :: rest) : Int)

/-- The canonical decimal form of a signed decimal numeral: leading zeros
removed (a lone `0` for zero), a minus sign kept for a non-zero value. -/
def canonicalDecimal : List Char → List Char
  | [] => []
  | c :: rest =>
    let digits := if c = '+' ∨ c = '-' then rest else c :: rest
    let stripped := digits.dropWhile (fun d => d = '0')
    if stripped.isEmpty then ['0']
    else if c = '-' then '-' :: stripped
    else stripped

/-! ## `path/filepath` on a Unix system -/

/-- Go `os.IsPathSeparator` with `Separator = '/'`. -/
def isPathSeparator (c : Char) : Bool := decide (c = '/')

/-- Whether the next unread character exists and is a separator. -/
def atSeparator : List Char → Bool
  | [] => false
  | c :: _ => isPathSeparator c

/-- Go `filepath.Base` (the volume name is empty on Unix): strip trailing
separators, keep what follows the last separator. -/
def baseChars (path : List Char) : List Char :=
  if path = [] then ['.']
  else
    let path1 := (path.reverse.dropWhile isPathSeparator).reverse
    let path2 := (path1.reverse.takeWhile (fun c => !isPathSeparator c)).reverse
    if path2 = [] then ['/'] else path2

/-- The inner loop of the `..` case of `Clean`: starting from the write index
`w`, step back while `w > dotdot` and `buf[w]` is no separator. -/
def backtrackLoop (buf : List Char) (dotdot : Nat) : Nat → Nat
  | 0 => 0
  | w + 1 =>
    if dotdot < w + 1 ∧ !isPathSeparator (buf.getD (w + 1) '/') then backtrackLoop buf dotdot w
    else w + 1

/-- The main loop of Go `filepath.Clean`.  `path` is the unread input
`path[r:]`, `out` the buffer `out.buf[:out.w]`, `dotdot` the index where `..`
must stop.  Every round consumes at least one character, so the initial fuel
`len(path) + 1` is never exhausted. -/
def cleanLoop (rooted : Bool) : Nat → List Char → List Char → Nat → List Char
  | 0, _, out, _ => out
  | fuel + 1, path, out, dotdot =>
    match path with
    | [] => out
    | c :: rest =>
      if isPathSeparator c then
        -- empty path element
        cleanLoop rooted fuel rest out dotdot
      else if c = '.' ∧ (rest = [] ∨ atSeparator rest) then
        -- . element
        cleanLoop rooted fuel rest out dotdot
      else if c = '.' ∧ rest.head? = some '.' ∧ (rest.tail = [] ∨ atSeparator rest.tail) then
        -- .. element: remove to last separator
        if dotdot < out.length then
          cleanLoop rooted fuel rest.tail (out.take (backtrackLoop out dotdot (out.length - 1))) dotdot
        else if !rooted then
          let out1 := (if 0 < out.length then out ++ ['/'] else out) ++ ['.', '.']
          cleanLoop rooted fuel rest.tail out1 out1.length
        else
          cleanLoop rooted fuel rest.tail out dotdot
      else
        -- real path element: add slash if needed, copy element
        let out1 :=
          if (rooted ∧ out.length ≠ 1) ∨ (!rooted ∧ out.length ≠ 0) then out ++ ['/'] else out
        cleanLoop rooted fuel ((c :: rest).dropWhile (fun d => !isPathSeparator d))
          (out1 ++ (c :: rest).takeWhile (fun d => !isPathSeparator d)) dotdot

/-- Go `filepath.Clean`. -/
def cleanChars (path : List Char) : List Char :=
  match path with
  | [] => ['.']
  | c :: rest =>
    let rooted := isPathSeparator c
    let out :=
      if rooted then cleanLoop true (path.length + 1) rest ['/'] 1
      else cleanLoop false (path.length + 1) (c :: rest) [] 0
    if out = [] then ['.'] else out

/-- Go `filepath.Join`: drop leading empty elements, join the rest with the
separator and clean the result. -/
def joinChars (elem : List (List Char)) : List Char :=
  match elem.dropWhile (fun e => e.isEmpty) with
  | [] => []
  | es => cleanChars (List.intercalate ['/'] es)

/-- `filepath.Base` on strings. -/
def Base (path : String) : String := String.mk (baseChars path.toList)

/-- `filepath.Clean` on strings. -/
def Clean (path : String) : String := String.mk (cleanChars path.toList)

/-- `filepath.Join` on strings. -/
def Join (elem : List String) : String := String.mk (joinChars (elem.map String.toList))

/-! ## `LoadConfiguration` -/

/-- Modelled from the spec: the record `shared.Configuration` of the package
`internal/shared`, with the three fields `evmNetworks` (network name to
endpoint URLs, as an association list), `validStandards` and `port`. -/
structure Configuration where
  EVMnetworks : List (String × List String)
  ValidStandards : List String
  Port : String
deriving DecidableEq, Repr

/-- Go `error` values met by `LoadConfiguration`: an error produced by the
library (`os.ReadFile`, `json.Unmarshal`), or `fmt.Errorf(format, arg)`. -/
inductive GoError where
  | lib (msg : String)
  | errorf (format : String) (arg : GoError)
deriving DecidableEq, Repr

/-- What `LoadConfiguration` takes from its surroundings: the file system
behind `os.ReadFile`, the decoder `json.Unmarshal` into a zero
`shared.Configuration`, and the format constant `shared.ErrUnmarshalJSON`. -/
structure Env where
  ReadFile : String → Except GoError (List UInt8)
  Unmarshal : List UInt8 → Except GoError Configuration
  ErrUnmarshalJSON : String

/-- The directory `LoadConfiguration` reads from. -/
def baseDir : String := "./configs"

/-- The path `LoadConfiguration` reads:
`filepath.Join(baseDir, filepath.Base(filename))`. -/
def normalizedPath (filename : String) : String :=
  Join [baseDir, Base filename]

/-- `utils.LoadConfiguration`.  The pair is Go's `(*shared.Configuration, error)`
with `none` for nil. -/
def LoadConfiguration (env : Env) (filename : String) : Option Configuration × Option GoError :=
  match env.ReadFile (normalizedPath filename) with
  | Except.error err => (none, some err)
  | Except.ok data =>
    match env.Unmarshal data with
    | Except.error err => (none, some (GoError.errorf env.ErrUnmarshalJSON err))
    | Except.ok config => (some config, none)

/-! ## `regexp/syntax`: parsing

The fragment of the RE2 syntax that the pattern of `IsValidERC1155Format` is
written in: literals, `\d`, `^`, `$`, capturing groups, `|`, and the
repetitions `*`, `+`, `?`.  The parser follows `syntax.Parse` under the flags
`syntax.Perl` (operand stack with the pseudo-operators `(` and `|`).  The
rewritings Go applies while it builds the tree (merging adjacent literals,
factoring common prefixes of alternatives, n-ary `OpConcat`/`OpAlternate`
nodes) do not change which strings match and are left out; n-ary nodes are
nested to the right. -/

/-- Syntax tree of a regular expression (`syntax.Regexp`). -/
inductive Regexp where
  | noMatch
  | emptyMatch
  | literal (c : Char)
  | charClass (ranges : List (Char × Char))
  | beginText
  | endText
  | capture (cap : Nat) (sub : Regexp)
  | star (sub : Regexp)
  | plus (sub : Regexp)
  | quest (sub : Regexp)
  | concat (a b : Regexp)
  | alternate (a b : Regexp)
deriving DecidableEq, Repr

/-- Entries of the parse stack: an operand, or one of the pseudo-operators
`opLeftParen` (with its capture index) and `opVerticalBar`. -/
inductive StackItem where
  | re (r : Regexp)
  | leftParen (cap : Nat)
  | verticalBar
deriving DecidableEq, Repr

/-- Parse errors (`syntax.ErrorCode`); `unsupported` marks syntax outside the
modelled fragment. -/
inductive ParseError where
  | missingParen
  | unexpectedParen
  | missingRepeatArgument
  | invalidRepeatOp
  | trailingBackslash
  | unsupported
deriving DecidableEq, Repr

/-- State of the parser: the stack (top first), the number of capture groups
opened so far, and whether the previous token was a repetition operator. -/
structure Parser where
  stack : List StackItem
  numCap : Nat
  lastRepeat : Bool
deriving DecidableEq, Repr

/-- Go `collapse`: a single operand stays, several are joined by `op`. -/
def collapse (op : Regexp → Regexp → Regexp) (empty : Regexp) : List Regexp → Regexp
  | [] => empty
  | [r] => r
  | r :: rs => op r (collapse op empty rs)

/-- Scan down the stack to the first pseudo-operator: the operands above it,
in the order they were pushed, and the stack below. -/
def popOperands : List StackItem → List Regexp → List Regexp × List StackItem
  | StackItem.re r :: st, acc => popOperands st (r :: acc)
  | st, acc => (acc, st)

/-- Go `parser.concat`: replace the operands above the topmost `(` or `|` by
their concatenation (`OpEmptyMatch` if there is none). -/
def parserConcat (stack : List StackItem) : List StackItem :=
  let (subs, below) := popOperands stack []
  StackItem.re (collapse Regexp.concat Regexp.emptyMatch subs) :: below

/-- Go `parser.alternate`: replace the operands above the topmost `(` by
their alternation (`OpNoMatch` if there is none). -/
def parserAlternate (stack : List StackItem) : List StackItem :=
  let (subs, below) := popOperands stack []
  StackItem.re (collapse Regexp.alternate Regexp.noMatch subs) :: below

/-- Go `parser.swapVerticalBar`: if a `|` lies just below the top of the
stack, swap the two and report `true`. -/
def swapVerticalBar : List StackItem → List StackItem × Bool
  | re1 :: StackItem.verticalBar :: below => (StackItem.verticalBar :: re1 :: below, true)
  | stack => (stack, false)

/-- Go `parser.parseVerticalBar`. -/
def parseVerticalBar (stack : List StackItem) : List StackItem :=
  match swapVerticalBar (parserConcat stack) with
  | (st, true) => st
  | (st, false) => StackItem.verticalBar :: st

/-- The common tail of `parseRightParen` and of `Parse`: concatenate, pop a
`|` that was swapped to the top, alternate. -/
def closeAlternation (stack : List StackItem) : List StackItem :=
  match swapVerticalBar (parserConcat stack) with
  | (st, true) => parserAlternate st.tail
  | (st, false) => parserAlternate st

/-- Go `parser.parseRightParen`. -/
def parseRightParen (stack : List StackItem) : Except ParseError (List StackItem) :=
  match closeAlternation stack with
  | StackItem.re re1 :: StackItem.leftParen cap :: below =>
    if cap = 0 then Except.ok (StackItem.re re1 :: below)
    else Except.ok (StackItem.re (Regexp.capture cap re1) :: below)
  | _ => Except.error ParseError.unexpectedParen

/-- Go `parser.repeat` for `*`, `+`, `?`: the operator applies to the operand
on top of the stack. -/
def parseRepeat (op : Regexp → Regexp) (p : Parser) : Except ParseError Parser :=
  if p.lastRepeat then Except.error ParseError.invalidRepeatOp
  else
    match p.stack with
    | StackItem.re sub :: below =>
      Except.ok { stack := StackItem.re (op sub) :: below, numCap := p.numCap, lastRepeat := true }
    | _ => Except.error ParseError.missingRepeatArgument

/-- Push an operand (`parser.op` / `parser.literal`). -/
def pushOperand (r : Regexp) (p : Parser) : Parser :=
  { stack := StackItem.re r :: p.stack, numCap := p.numCap, lastRepeat := false }

/-- Whether `c` is written as itself in a pattern (the `default` case of the
lexer switch of `syntax.Parse`). -/
def isPlainChar (c : Char) : Bool :=
  !(['(', ')', '|', '^', '$', '.', '[', ']', '*', '+', '?', '{', '}', '\\'].contains c)

/-- The token loop of `syntax.Parse`. -/
def parseLoop : List Char → Parser → Except ParseError Parser
  | [], p => Except.ok p
  | c :: t, p =>
    if c = '(' then
      if t.head? = some '?' then Except.error ParseError.unsupported
      else parseLoop t
        { stack := StackItem.leftParen (p.numCap + 1) :: p.stack, numCap := p.numCap + 1,
          lastRepeat := false }
    else if c = '|' then
      parseLoop t { stack := parseVerticalBar p.stack, numCap := p.numCap, lastRepeat := false }
    else if c = ')' then
      match parseRightParen p.stack with
      | Except.error e => Except.error e
      | Except.ok st => parseLoop t { stack := st, numCap := p.numCap, lastRepeat := false }
    else if c = '^' then parseLoop t (pushOperand Regexp.beginText p)
    else if c = '$' then parseLoop t (pushOperand Regexp.endText p)
    else if c = '*' ∨ c = '+' ∨ c = '?' then
      if t.head? = some '?' then Except.error ParseError.unsupported
      else
        match parseRepeat
            (if c = '*' then Regexp.star else if c = '+' then Regexp.plus else Regexp.quest) p with
        | Except.error e => Except.error e
        | Except.ok p1 => parseLoop t p1
    else if c = '\\' then
      match t with
      | [] => Except.error ParseError.trailingBackslash
      | e :: t1 =>
        if e = 'd' then parseLoop t1 (pushOperand (Regexp.charClass [('0', '9')]) p)
        else Except.error ParseError.unsupported
    else if isPlainChar c then parseLoop t (pushOperand (Regexp.literal c) p)
    else Except.error ParseError.unsupported

/-- Go `syntax.Parse(s, syntax.Perl)` on the modelled fragment. -/
def Parse (s : List Char) : Except ParseError Regexp :=
  match parseLoop s { stack := [], numCap := 0, lastRepeat := false } with
  | Except.error e => Except.error e
  | Except.ok p =>
    match closeAlternation p.stack with
    | [StackItem.re r] => Except.ok r
    | _ => Except.error ParseError.missingParen

/-! ## `regexp`: matching

A position in the text is the list of characters not yet read; it is the
beginning of the text exactly when that list is as long as the text. -/

/-- Whether `c` lies in one of the ranges of a character class. -/
def inClass (ranges : List (Char × Char)) (c : Char) : Bool :=
  ranges.any (fun r => decide (r.1.toNat ≤ c.toNat ∧ c.toNat ≤ r.2.toNat))

/-- Positions reached by matching `f` zero or more times from `rest`; a round
that reads nothing adds no position, so `fuel = rest.length` rounds suffice. -/
def starEnds (f : List Char → List (List Char)) : Nat → List Char → List (List Char)
  | 0, rest => [rest]
  | fuel + 1, rest =>
    rest :: ((f rest).filter (fun r => decide (r.length < rest.length))).flatMap (starEnds f fuel)

/-- All positions at which a match of `re` that starts at position `rest` of a
text of length `n` can end. -/
def Regexp.ends (n : Nat) : Regexp → List Char → List (List Char)
  | Regexp.noMatch, _ => []
  | Regexp.emptyMatch, rest => [rest]
  | Regexp.literal c, rest =>
    match rest with
    | [] => []
    | x :: xs => if x = c then [xs] else []
  | Regexp.charClass ranges, rest =>
    match rest with
    | [] => []
    | x :: xs => if inClass ranges x then [xs] else []
  | Regexp.beginText, rest => if rest.length = n then [rest] else []
  | Regexp.endText, rest => if rest = [] then [rest] else []
  | Regexp.capture _ sub, rest => Regexp.ends n sub rest
  | Regexp.star sub, rest => starEnds (Regexp.ends n sub) rest.length rest
  | Regexp.plus sub, rest =>
    (Regexp.ends n sub rest).flatMap (fun r => starEnds (Regexp.ends n sub) r.length r)
  | Regexp.quest sub, rest => rest :: Regexp.ends n sub rest
  | Regexp.concat a b, rest => (Regexp.ends n a rest).flatMap (Regexp.ends n b)
  | Regexp.alternate a b, rest => Regexp.ends n a rest ++ Regexp.ends n b rest

/-- Go `(*Regexp).MatchString`: whether some substring of `s` matches, the
search being unanchored. -/
def Regexp.MatchString (re : Regexp) (s : String) : Bool :=
  s.toList.tails.any (fun rest => !(Regexp.ends s.toList.length re rest).isEmpty)

/-- Go `regexp.Compile`: the compiled expression (nil on failure) and the
error (nil on success). -/
def Compile (expr : String) : Option Regexp × Option ParseError :=
  match Parse expr.toList with
  | Except.error e => (none, some e)
  | Except.ok re => (some re, none)

/-! ## `IsValidERC1155Format` -/

/-- Result of running a function that may panic. -/
inductive Outcome (α : Type) where
  | returned (value : α)
  | panicked
deriving DecidableEq, Repr

/-- The pattern literal of `IsValidERC1155Format`. -/
def erc1155Pattern : String := "^\\d+_\\d+(&\\d+_\\d+)*$|^\\d+-\\d+(&\\d+-\\d+)*$"

/-- `utils.IsValidERC1155Format` with `regexp.Compile` as a parameter: the
lines written by `log.Printf` and the outcome.  After a compile error the
function logs and goes on to call `MatchString` on the nil `*Regexp`, which
dereferences it. -/
def IsValidERC1155FormatWith (compile : String → Option Regexp × Option ParseError)
    (str : String) : List String × Outcome Bool :=
  let (erc1155Format, err) := compile erc1155Pattern
  let logged := if err ≠ none then ["invalid regex"] else []
  match erc1155Format with
  | none => (logged, Outcome.panicked)
  | some re =>
    if re.MatchString str then (logged, Outcome.returned true)
    else (logged, Outcome.returned false)

/-- `utils.IsValidERC1155Format`. -/
def IsValidERC1155Format (str : String) : List String × Outcome Bool :=
  IsValidERC1155FormatWith Compile str

/-! ## The composite token-id grammar, in the words of the specification -/

/-- A segment: a non-empty run of digits, the separator `sep`, a non-empty run
of digits. -/
def IsSegment (sep : Char) (seg : List Char) : Prop :=
  ∃ a b : List Char, isDigits a = true ∧ isDigits b = true ∧ seg = a ++ sep :: b

/-- One or more segments, all with the separator `sep`, joined by `&`. -/
def IsComposite (sep : Char) (s : List Char) : Prop :=
  ∃ segs : List (List Char), segs ≠ [] ∧ (∀ seg ∈ segs, IsSegment sep seg) ∧
    s = List.intercalate ['&'] segs

/-- The grammar of composite token ids: the whole string is a composite whose
separator is `_` in every segment, or `-` in every segment. -/
def IsERC1155 (s : String) : Prop :=
  IsComposite '_' s.toList ∨ IsComposite '-' s.toList

/-- The tree `\d`. -/
def digitRe : Regexp := Regexp.charClass [('0', '9')]

/-- The tree of `\d+<sep>\d+`, followed by `k`. -/
def segmentRe (sep : Char) (k : Regexp) : Regexp :=
  Regexp.concat (Regexp.plus digitRe) (Regexp.concat (Regexp.literal sep)
    (Regexp.concat (Regexp.plus digitRe) k))

/-- The tree of the group `(&\d+<sep>\d+)` with capture index `cap`. -/
def groupRe (cap : Nat) (sep : Char) : Regexp :=
  Regexp.capture cap (Regexp.concat (Regexp.literal '&')
    (Regexp.concat (Regexp.plus digitRe) (Regexp.concat (Regexp.literal sep)
      (Regexp.plus digitRe))))

/-- The tree of one alternative `^\d+<sep>\d+(&\d+<sep>\d+)*$`. -/
def branchRe (cap : Nat) (sep : Char) : Regexp :=
  Regexp.concat Regexp.beginText
    (segmentRe sep (Regexp.concat (Regexp.star (groupRe cap sep)) Regexp.endText))

/-- The tree the pattern of `IsValidERC1155Format` parses to. -/
def erc1155Re : Regexp := Regexp.alternate (branchRe 1 '_') (branchRe 2 '-')

/-! ## Two file systems used as concrete inputs -/

/-- The text of a small configuration document, in the layout of section 6 of
the specification. -/
def sampleDocumentText : String :=
  "\x7b\"evmNetworks\":\x7b\"eth\":[\"https://eth.llamarpc.com\"]\x7d," ++
  "\"validStandards\":[\"erc20\",\"nft\"],\"port\":\":8080\"\x7d"

/-- The bytes of the sample document, the UTF-8 encoding of its text. -/
def sampleDocument : List UInt8 :=
  [123, 34, 101, 118, 109, 78, 101, 116, 119, 111, 114, 107, 115, 34, 58, 123, 34, 101, 116,
   104, 34, 58, 91, 34, 104, 116, 116, 112, 115, 58, 47, 47, 101, 116, 104, 46, 108, 108, 97,
   109, 97, 114, 112, 99, 46, 99, 111, 109, 34, 93, 125, 44, 34, 118, 97, 108, 105, 100, 83,
   116, 97, 110, 100, 97, 114, 100, 115, 34, 58, 91, 34, 101, 114, 99, 50, 48, 34, 44, 34, 110,
   102, 116, 34, 93, 44, 34, 112, 111, 114, 116, 34, 58, 34, 58, 56, 48, 56, 48, 34, 125]

/-- The bytes of the text `invalid json` of `TestLoadConfiguration`. -/
def invalidDocument : List UInt8 :=
  [105, 110, 118, 97, 108, 105, 100, 32, 106, 115, 111, 110]

/-- The configuration the sample document decodes to: each field holds what
the document gives for it. -/
def sampleConfiguration : Configuration :=
  { EVMnetworks := [("eth", ["https://eth.llamarpc.com"])], ValidStandards := ["erc20", "nft"],
    Port := ":8080" }

/-- The results of `json.Unmarshal` into a zero `shared.Configuration` on the
two documents used below: the sample document decodes to the sample
configuration, the text `invalid json` is refused at its first character.
Any other input is reported as an error; no statement below uses the decoder
at another input. -/
def sampleUnmarshal (data : List UInt8) : Except GoError Configuration :=
  if data = sampleDocument then Except.ok sampleConfiguration
  else if data = invalidDocument then
    Except.error (GoError.lib "invalid character 'i' looking for beginning of value")
  else Except.error (GoError.lib "unexpected end of JSON input")

/-- A file system whose only file is the temporary file `/tmp/example1`,
outside `./configs`; it holds the sample document. -/
def tmpFileEnv : Env :=
  { ReadFile := fun path =>
      if path = "/tmp/example1" then Except.ok sampleDocument
      else Except.error (GoError.lib "open: no such file or directory")
    Unmarshal := sampleUnmarshal
    ErrUnmarshalJSON := "error unmarshalling JSON: %v" }

/-- A file system whose only file is `configs/example1`; it holds the sample
document. -/
def configsEnv : Env :=
  { ReadFile := fun path =>
      if path = "configs/example1" then Except.ok sampleDocument
      else Except.error (GoError.lib "open: no such file or directory")
    Unmarshal := sampleUnmarshal
    ErrUnmarshalJSON := "error unmarshalling JSON: %v" }

/-- A file system whose only file is `configs/bad.json`; it holds the text
`invalid json`, which the sample decoder refuses. -/
def invalidJsonEnv : Env :=
  { ReadFile := fun path =>
      if path = "configs/bad.json" then Except.ok invalidDocument
      else Except.error (GoError.lib "open: no such file or directory")
    Unmarshal := sampleUnmarshal
    ErrUnmarshalJSON := "error unmarshalling JSON: %v" }

/-- The environment `env` with its decoder replaced by `unmarshal`. -/
def Env.withUnmarshal (env : Env) (unmarshal : List UInt8 → Except GoError Configuration) : Env :=
  { ReadFile := env.ReadFile, Unmarshal := unmarshal, ErrUnmarshalJSON := env.ErrUnmarshalJSON }

/-! ## Cross-chain lookup and element counting

`GetCrosschainData` and `CountElements` are not in `utils.go`; what they do is
taken from the specification.  A Go map is an association list (a nil map and
an empty map are both the empty list, and a key is bound to the value paired
with it); a big integer is an `Int`. -/

/-- Modelled from the spec: the type `utils.NetworkContractMap`, missing from
`utils.go`, a mapping from network name to contract address. -/
abbrev NetworkContractMap : Type := List (String × String)

/-- Modelled from the spec: the function `utils.GetCrosschainData`, missing
from `utils.go`.  It returns the entries of the mapping whose value for the
target network equals the target contract address, each with its collection id
and its whole network map; a network absent from an entry does not match. -/
def GetCrosschainData (network contract : String)
    (crossChainCollections : List (String × NetworkContractMap)) :
    List (String × NetworkContractMap) :=
  crossChainCollections.filter
    (fun entry => decide (entry.2.lookup network = some contract))

/-- Modelled from the spec: the count `utils.CountElements` gives for one
group, the number of its elements equal in value to its first element.  The
specification leaves the count of an empty group open; the model counts over
no element there. -/
def countGroup : List Int → Int
  | [] => 0
  | first :: rest => (((first :: rest).filter (fun x => decide (x = first))).length : Int)

/-- Modelled from the spec: the function `utils.CountElements`, missing from
`utils.go`: one count per group, in the order of the groups.  The result is
an allocated slice (`some`), never the nil slice. -/
def CountElements (lists : List (List Int)) : Option (List Int) :=
  some (lists.map countGroup)

/-- The mapping of `TestGetCrosschainData`. -/
def testCollections : List (String × NetworkContractMap) :=
  [("1", [("arb", "0x3"), ("eth", "0x1"), ("trn", "0x2"), ("none", "0x8")]),
   ("2", [("eth", "0x4"), ("frame", "0x6"), ("trn", "0x5")])]

/-! ## Splitting a string -/

/-- Go `strings.Split(s, sep)` for a separator `sep` of one character: the
pieces of `s` between the occurrences of `sep`. -/
def splitChars (sep : Char) : List Char → List (List Char)
  | [] => [[]]
  | c :: t =>
    if c = sep then [] :: splitChars sep t
    else
      match splitChars sep t with
      | [] => [[c]]
      | piece :: pieces => (c :: piece) :: pieces

/-! ## Auxiliary notions for the scan loop -/

/-- The number accumulated by the scan loop so far. -/
def ScanState.value (st : ScanState) : Nat := st.z * 10 ^ st.i + st.di

/-- Loop invariant of `scanLoop`: fewer than 19 digits are pending in `di`. -/
def ScanState.Inv (st : ScanState) : Prop := st.i < 19 ∧ st.di < 10 ^ st.i

/-! ## Matching: what the positions computed by `Regexp.ends` mean -/

theorem compile_erc1155Pattern : Compile erc1155Pattern = (some erc1155Re, none) := by
  decide

theorem mem_ends_literal (n : Nat) (c : Char) (x y : List Char) :
    y ∈ Regexp.ends n (Regexp.literal c) x ↔ x = c :: y := by
  cases x with
  | nil => simp [Regexp.ends]
  | cons a t =>
    by_cases h : a = c
    · subst h; simp [Regexp.ends, eq_comm]
    · simp [Regexp.ends, h]

theorem inClass_digit (c : Char) : inClass [('0', '9')] c = isDecDigit c := by
  simp [inClass, isDecDigit]

theorem mem_ends_digit (n : Nat) (x y : List Char) :
    y ∈ Regexp.ends n digitRe x ↔ ∃ c, isDecDigit c = true ∧ x = c :: y := by
  cases x with
  | nil => simp [Regexp.ends, digitRe]
  | cons a t =>
    by_cases h : isDecDigit a = true
    · simp only [Regexp.ends, digitRe, inClass_digit, h, if_true, List.mem_singleton]
      constructor
      · intro hy; exact ⟨a, h, by rw [hy]⟩
      · rintro ⟨c, _, he⟩
        injection he with h1 h2
        exact h2.symm
    · simp only [Regexp.ends, digitRe, inClass_digit, h]
      simp only [Bool.false_eq_true, if_false, List.not_mem_nil, false_iff]
      rintro ⟨c, hc, he⟩
      injection he with h1 h2
      subst h1
      exact h hc

theorem mem_ends_concat (n : Nat) (a b : Regexp) (x y : List Char) :
    y ∈ Regexp.ends n (Regexp.concat a b) x ↔
      ∃ m, m ∈ Regexp.ends n a x ∧ y ∈ Regexp.ends n b m := by
  simp [Regexp.ends, List.mem_flatMap]

theorem ends_capture (n cap : Nat) (sub : Regexp) (x : List Char) :
    Regexp.ends n (Regexp.capture cap sub) x = Regexp.ends n sub x := by
  simp [Regexp.ends]

theorem ends_star (n : Nat) (sub : Regexp) (x : List Char) :
    Regexp.ends n (Regexp.star sub) x = starEnds (Regexp.ends n sub) x.length x := by
  simp [Regexp.ends]

theorem mem_ends_alternate (n : Nat) (a b : Regexp) (x y : List Char) :
    y ∈ Regexp.ends n (Regexp.alternate a b) x ↔
      y ∈ Regexp.ends n a x ∨ y ∈ Regexp.ends n b x := by
  simp [Regexp.ends]

theorem not_isEmpty_iff_exists_mem {α : Type} (l : List α) :
    (!l.isEmpty) = true ↔ ∃ y, y ∈ l := by
  cases l <;> simp

theorem mem_ends_beginText (n : Nat) (x y : List Char) :
    y ∈ Regexp.ends n Regexp.beginText x ↔ x.length = n ∧ y = x := by
  by_cases h : x.length = n <;> simp [Regexp.ends, h]

theorem mem_ends_endText (n : Nat) (x y : List Char) :
    y ∈ Regexp.ends n Regexp.endText x ↔ x = [] ∧ y = [] := by
  by_cases h : x = []
  · subst h; simp [Regexp.ends]
  · simp [Regexp.ends, h]

/-- Zero or more rounds of a step that strips a word of `P` strip a
concatenation of words of `P`. -/
theorem mem_starEnds (f : List Char → List (List Char)) (P : List Char → Prop)
    (hf : ∀ x y, y ∈ f x ↔ ∃ w, P w ∧ x = w ++ y) :
    ∀ (fuel : Nat) (x y : List Char), x.length ≤ fuel →
      (y ∈ starEnds f fuel x ↔ ∃ ws : List (List Char), (∀ w ∈ ws, P w) ∧ x = ws.flatten ++ y) := by
  intro fuel x y hfuel
  constructor
  · clear hfuel
    induction fuel generalizing x with
    | zero =>
      intro h
      simp only [starEnds, List.mem_singleton] at h
      exact ⟨[], by simp, by simp [h]⟩
    | succ k ih =>
      intro h
      simp only [starEnds, List.mem_cons, List.mem_flatMap, List.mem_filter] at h
      rcases h with h | ⟨r, ⟨hr, _⟩, hy⟩
      · exact ⟨[], by simp, by simp [h]⟩
      · obtain ⟨w, hw, hx⟩ := (hf x r).1 hr
        obtain ⟨ws, hws, hr2⟩ := ih r hy
        refine ⟨w :: ws, ?_, ?_⟩
        · intro v hv
          rcases List.mem_cons.1 hv with hv | hv
          · exact hv ▸ hw
          · exact hws v hv
        · simp [hx, hr2]
  · rintro ⟨ws, hws, hx⟩
    induction ws generalizing x fuel with
    | nil =>
      have hxy : y = x := by simpa using hx.symm
      cases fuel <;> simp [starEnds, hxy]
    | cons w ws ih =>
      have hw : P w := hws w (List.mem_cons_self _ _)
      have hws2 : ∀ v ∈ ws, P v := fun v hv => hws v (List.mem_cons_of_mem _ hv)
      by_cases hwe : w = []
      · subst hwe
        exact ih fuel x hfuel hws2 (by simpa using hx)
      · have hlen : 0 < w.length := List.length_pos.2 hwe
        have hx2 : x = w ++ (ws.flatten ++ y) := by simpa using hx
        have hxl : x.length = w.length + (ws.flatten ++ y).length := by
          rw [hx2, List.length_append]
        cases fuel with
        | zero => omega
        | succ k =>
          simp only [starEnds, List.mem_cons, List.mem_flatMap, List.mem_filter]
          right
          refine ⟨ws.flatten ++ y, ⟨(hf x _).2 ⟨w, hw, hx2⟩, ?_⟩, ?_⟩
          · simp only [decide_eq_true_eq]; omega
          · exact ih k _ (by omega) hws2 rfl

theorem isDigits_iff (l : List Char) :
    isDigits l = true ↔ l ≠ [] ∧ ∀ c ∈ l, isDecDigit c = true := by
  cases l <;> simp [isDigits]

theorem isDigits_cons (c : Char) (l : List Char) :
    isDigits (c :: l) = true ↔ isDecDigit c = true ∧ ∀ d ∈ l, isDecDigit d = true := by
  simp [isDigits]

theorem mem_ends_plus_digit (n : Nat) (x y : List Char) :
    y ∈ Regexp.ends n (Regexp.plus digitRe) x ↔ ∃ ds, isDigits ds = true ∧ x = ds ++ y := by
  have hstar := mem_starEnds (Regexp.ends n digitRe)
    (fun w => ∃ c, isDecDigit c = true ∧ w = [c])
    (fun x y => by
      rw [mem_ends_digit]
      constructor
      · rintro ⟨c, hc, hx⟩; exact ⟨[c], ⟨c, hc, rfl⟩, by simp [hx]⟩
      · rintro ⟨w, ⟨c, hc, hw⟩, hx⟩; exact ⟨c, hc, by simp [hx, hw]⟩)
  simp only [Regexp.ends, List.mem_flatMap]
  constructor
  · rintro ⟨r, hr, hy⟩
    obtain ⟨c, hc, hx⟩ := (mem_ends_digit n x r).1 hr
    obtain ⟨ws, hws, hr2⟩ := (hstar r.length r y le_rfl).1 hy
    refine ⟨c :: ws.flatten, ?_, by simp [hx, hr2]⟩
    rw [isDigits_cons]
    refine ⟨hc, ?_⟩
    intro d hd
    obtain ⟨w, hw, hdw⟩ := List.mem_flatten.1 hd
    obtain ⟨e, he, hwe⟩ := hws w hw
    rw [hwe, List.mem_singleton] at hdw
    exact hdw ▸ he
  · rintro ⟨ds, hds, hx⟩
    cases ds with
    | nil => simp [isDigits] at hds
    | cons c t =>
      rw [isDigits_cons] at hds
      refine ⟨t ++ y, (mem_ends_digit n x _).2 ⟨c, hds.1, by simp [hx]⟩, ?_⟩
      refine (hstar _ _ y le_rfl).2 ⟨t.map (fun d => [d]), ?_, ?_⟩
      · intro w hw
        obtain ⟨d, hd, hdw⟩ := List.mem_map.1 hw
        exact ⟨d, hds.2 d hd, hdw.symm⟩
      · congr 1
        clear hds hx
        induction t with
        | nil => rfl
        | cons d t ih => simp [← ih]

theorem mem_ends_segment (n : Nat) (sep : Char) (k : Regexp) (x y : List Char) :
    y ∈ Regexp.ends n (segmentRe sep k) x ↔
      ∃ seg m, IsSegment sep seg ∧ x = seg ++ m ∧ y ∈ Regexp.ends n k m := by
  simp only [segmentRe, mem_ends_concat, mem_ends_plus_digit, mem_ends_literal]
  constructor
  · rintro ⟨m1, ⟨a, ha, hx⟩, m2, hm1, m3, ⟨b, hb, hm2⟩, hy⟩
    exact ⟨a ++ sep :: b, m3, ⟨a, b, ha, hb, rfl⟩, by simp [hx, hm1, hm2], hy⟩
  · rintro ⟨seg, m, ⟨a, b, ha, hb, hseg⟩, hx, hy⟩
    exact ⟨sep :: b ++ m, ⟨a, ha, by simp [hx, hseg]⟩, b ++ m, rfl, m, ⟨b, hb, rfl⟩, hy⟩

theorem mem_ends_group (n cap : Nat) (sep : Char) (x y : List Char) :
    y ∈ Regexp.ends n (groupRe cap sep) x ↔
      ∃ w, (∃ seg, IsSegment sep seg ∧ w = '&' :: seg) ∧ x = w ++ y := by
  simp only [groupRe, ends_capture, mem_ends_concat, mem_ends_plus_digit, mem_ends_literal]
  constructor
  · rintro ⟨m1, hx, m2, ⟨a, ha, hm1⟩, m3, hm2, b, hb, hm3⟩
    exact ⟨'&' :: (a ++ sep :: b), ⟨_, ⟨a, b, ha, hb, rfl⟩, rfl⟩, by simp [hx, hm1, hm2, hm3]⟩
  · rintro ⟨w, ⟨seg, ⟨a, b, ha, hb, hseg⟩, hw⟩, hx⟩
    exact ⟨a ++ sep :: b ++ y, by simp [hx, hw, hseg], sep :: b ++ y, ⟨a, ha, by simp⟩,
      b ++ y, rfl, b, hb, rfl⟩

theorem intercalate_amp_cons (seg : List Char) (segs : List (List Char)) :
    List.intercalate ['&'] (seg :: segs) = seg ++ (segs.map (fun t => '&' :: t)).flatten := by
  induction segs generalizing seg with
  | nil => simp [List.intercalate]
  | cons t ts ih =>
    have h := ih t
    simp only [List.intercalate, List.intersperse, List.flatten_cons] at h ⊢
    simp [h]

theorem mem_ends_star_group (n cap : Nat) (sep : Char) (x y : List Char) :
    y ∈ Regexp.ends n (Regexp.star (groupRe cap sep)) x ↔
      ∃ segs : List (List Char), (∀ seg ∈ segs, IsSegment sep seg) ∧
        x = (segs.map (fun t => '&' :: t)).flatten ++ y := by
  have hstar := mem_starEnds (Regexp.ends n (groupRe cap sep))
    (fun w => ∃ seg, IsSegment sep seg ∧ w = '&' :: seg) (mem_ends_group n cap sep)
  rw [ends_star, hstar x.length x y le_rfl]
  constructor
  · rintro ⟨ws, hws, hx⟩
    refine ⟨ws.map List.tail, ?_, ?_⟩
    · intro seg hseg
      obtain ⟨w, hw, hwt⟩ := List.mem_map.1 hseg
      obtain ⟨sg, hsg, hwsg⟩ := hws w hw
      rw [← hwt, hwsg]
      exact hsg
    · have hmap : (ws.map List.tail).map (fun t => '&' :: t) = ws := by
        rw [List.map_map]
        conv_rhs => rw [← List.map_id ws]
        apply List.map_congr_left
        intro w hw
        obtain ⟨sg, _, hwsg⟩ := hws w hw
        simp [hwsg]
      rw [hmap, hx]
  · rintro ⟨segs, hsegs, hx⟩
    refine ⟨segs.map (fun t => '&' :: t), ?_, hx⟩
    intro w hw
    obtain ⟨sg, hsg, hwsg⟩ := List.mem_map.1 hw
    exact ⟨sg, hsegs sg hsg, hwsg.symm⟩

theorem mem_ends_branch (n cap : Nat) (sep : Char) (x y : List Char) :
    y ∈ Regexp.ends n (branchRe cap sep) x ↔ x.length = n ∧ y = [] ∧ IsComposite sep x := by
  simp only [branchRe, mem_ends_concat, mem_ends_beginText, mem_ends_segment,
    mem_ends_star_group, mem_ends_endText]
  constructor
  · rintro ⟨m, ⟨hn, hm⟩, seg, m1, hseg, hx, m2, ⟨segs, hsegs, hm1⟩, hm2, hy⟩
    subst hm hm2
    refine ⟨hn, hy, seg :: segs, by simp, ?_, ?_⟩
    · intro t ht
      rcases List.mem_cons.1 ht with ht | ht
      · exact ht ▸ hseg
      · exact hsegs t ht
    · rw [intercalate_amp_cons, hx, hm1]; simp
  · rintro ⟨hn, hy, segs, hne, hsegs, hx⟩
    cases segs with
    | nil => exact absurd rfl hne
    | cons seg rest =>
      rw [intercalate_amp_cons] at hx
      exact ⟨x, ⟨hn, rfl⟩, seg, _, hsegs seg (List.mem_cons_self _ _), hx, [],
        ⟨rest, fun t ht => hsegs t (List.mem_cons_of_mem _ ht), by simp⟩, rfl, hy⟩

/-- The compiled pattern matches exactly the composite token ids. -/
theorem matchString_erc1155Re (s : String) :
    erc1155Re.MatchString s = true ↔ IsERC1155 s := by
  simp only [Regexp.MatchString, List.any_eq_true, List.mem_tails, not_isEmpty_iff_exists_mem,
    erc1155Re, mem_ends_alternate, mem_ends_branch, IsERC1155]
  constructor
  · rintro ⟨rest, hsuf, y, ⟨hl, _, hc⟩ | ⟨hl, _, hc⟩⟩
    · exact Or.inl (hsuf.eq_of_length hl ▸ hc)
    · exact Or.inr (hsuf.eq_of_length hl ▸ hc)
  · rintro (h | h)
    · exact ⟨s.toList, List.suffix_refl _, [], Or.inl ⟨rfl, rfl, h⟩⟩
    · exact ⟨s.toList, List.suffix_refl _, [], Or.inr ⟨rfl, rfl, h⟩⟩

/-- With the real `regexp.Compile` the validator logs nothing and returns the
verdict of the compiled pattern. -/
theorem IsValidERC1155Format_eq (s : String) :
    IsValidERC1155Format s = ([], Outcome.returned (erc1155Re.MatchString s)) := by
  simp only [IsValidERC1155Format, IsValidERC1155FormatWith, compile_erc1155Pattern]
  cases erc1155Re.MatchString s <;> simp

theorem isValid_true_iff (s : String) :
    IsValidERC1155Format s = ([], Outcome.returned true) ↔ IsERC1155 s := by
  rw [IsValidERC1155Format_eq, ← matchString_erc1155Re]
  cases erc1155Re.MatchString s <;> simp

theorem isValid_false_iff (s : String) :
    IsValidERC1155Format s = ([], Outcome.returned false) ↔ ¬ IsERC1155 s := by
  rw [IsValidERC1155Format_eq, ← matchString_erc1155Re]
  cases erc1155Re.MatchString s <;> simp

/-! ## Scanning decimal numerals -/

theorem maxPow_ten : maxPow 10 = (10 ^ 19, 19) := by decide

theorem digitVal_of_digit (c : Char) (h : isDecDigit c = true) :
    digitVal 10 c = c.toNat - 48 ∧ digitVal 10 c < 10 := by
  simp only [isDecDigit, decide_eq_true_eq] at h
  unfold digitVal
  rw [if_pos h]
  omega

theorem digitVal_of_not_digit (c : Char) (h : isDecDigit c = false) :
    10 ≤ digitVal 10 c := by
  simp only [isDecDigit, decide_eq_false_iff_not] at h
  unfold digitVal
  rw [if_neg h]
  simp only [maxBaseSmall, MaxBase]
  split_ifs <;> omega

/-- On a run of digits `ds` followed by `r`, which is empty or starts with a
non-digit, the loop reads exactly `ds`, without word overflow, and accumulates
its value by Horner's rule. -/
theorem scanLoop_digits (ds r : List Char) (hds : ∀ c ∈ ds, isDecDigit c = true)
    (hr : ∀ c t, r = c :: t → isDecDigit c = false) :
    ∀ st : ScanState, st.Inv →
      ∃ st2 : ScanState, scanLoop 10 (10 ^ 19) 19 (ds ++ r) st = (st2, r) ∧ st2.Inv ∧
        st2.value = ds.foldl (fun acc c => acc * 10 + (c.toNat - 48)) st.value ∧
        st2.count = st.count + ds.length := by
  induction ds with
  | nil =>
    intro st hst
    refine ⟨st, ?_, hst, rfl, rfl⟩
    cases r with
    | nil => rfl
    | cons c t =>
      have h10 := digitVal_of_not_digit c (hr c t rfl)
      simp [scanLoop, h10]
  | cons c t ih =>
    intro st hst
    obtain ⟨hv, hlt⟩ := digitVal_of_digit c (hds c (List.mem_cons_self _ _))
    have hds2 : ∀ d ∈ t, isDecDigit d = true := fun d hd => hds d (List.mem_cons_of_mem _ hd)
    obtain ⟨hi, hdi⟩ := hst
    have hpow : 10 ^ (st.i + 1) ≤ 10 ^ 19 := Nat.pow_le_pow_right (by norm_num) (by omega)
    have hnew : st.di * 10 + digitVal 10 c < 10 ^ (st.i + 1) := by
      rw [pow_succ]; omega
    have hmod : (st.di * 10 + digitVal 10 c) % 2 ^ wordBits = st.di * 10 + digitVal 10 c := by
      apply Nat.mod_eq_of_lt
      have : (10 : Nat) ^ 19 < 2 ^ wordBits := by norm_num [wordBits]
      omega
    have hnot : ¬ 10 ≤ digitVal 10 c := by omega
    simp only [List.cons_append, scanLoop, hnot, if_false, hmod, List.foldl_cons,
      List.length_cons]
    by_cases hfull : st.i + 1 = 19
    · simp only [hfull, if_true]
      obtain ⟨st2, h1, h2, h3, h4⟩ := ih hds2
        ⟨st.z * 10 ^ 19 + (st.di * 10 + digitVal 10 c), 0, 0, st.count + 1⟩
        ⟨by norm_num, by norm_num⟩
      refine ⟨st2, h1, h2, ?_, ?_⟩
      · rw [h3]
        congr 1
        have hi18 : st.i = 18 := by omega
        simp only [ScanState.value, hi18, hv]
        ring
      · rw [h4]; simp only; omega
    · simp only [hfull, if_false]
      obtain ⟨st2, h1, h2, h3, h4⟩ := ih hds2
        ⟨st.z, st.di * 10 + digitVal 10 c, st.i + 1, st.count + 1⟩
        ⟨by simp only; omega, hnew⟩
      refine ⟨st2, h1, h2, ?_, ?_⟩
      · rw [h3]
        congr 1
        simp only [ScanState.value, hv, pow_succ]
        ring
      · rw [h4]; simp only; omega

theorem dropWhile_digit_head (l : List Char) :
    ∀ c t, l.dropWhile isDecDigit = c :: t → isDecDigit c = false := by
  intro c t h
  have := List.head_dropWhile_not isDecDigit l (by rw [h]; simp)
  simpa [h] using this

/-- What `nat.scan` computes in base 10: the value of the longest run of
leading digits, and the rest; no digit at all is an error. -/
theorem natScan_ten (input : List Char) :
    natScan input 10 =
      if input.takeWhile isDecDigit = [] then Except.error ScanError.noDigits
      else Except.ok (decimalValue (input.takeWhile isDecDigit), input.dropWhile isDecDigit) := by
  obtain ⟨st2, h1, ⟨hi, hdi⟩, h3, h4⟩ := scanLoop_digits (input.takeWhile isDecDigit)
    (input.dropWhile isDecDigit) (fun c hc => (List.mem_takeWhile_imp hc))
    (dropWhile_digit_head input) ⟨0, 0, 0, 0⟩ ⟨by norm_num, by norm_num⟩
  rw [List.takeWhile_append_dropWhile] at h1
  simp only [natScan, maxPow_ten, h1]
  by_cases hnil : input.takeWhile isDecDigit = []
  · simp only [hnil, List.length_nil] at h4
    simp [hnil, h4]
  · have hpos : 0 < (input.takeWhile isDecDigit).length := List.length_pos.2 hnil
    have hc : st2.count ≠ 0 := by rw [h4]; simp only; omega
    simp only [hnil, hc, if_false]
    congr 2
    have hval : st2.value = decimalValue (input.takeWhile isDecDigit) := by
      rw [h3]; simp [decimalValue, ScanState.value]
    rw [← hval]
    by_cases h0 : 0 < st2.i
    · have hw : wordPow 10 st2.i = 10 ^ st2.i := by
        apply Nat.mod_eq_of_lt
        have h1 : 10 ^ st2.i ≤ 10 ^ 19 := Nat.pow_le_pow_right (by norm_num) (by omega)
        have h2 : (10 : Nat) ^ 19 < 2 ^ wordBits := by norm_num [wordBits]
        omega
      simp [h0, hw, ScanState.value]
    · have hi0 : st2.i = 0 := by omega
      rw [hi0] at hdi
      simp only [pow_zero, Nat.lt_one_iff] at hdi
      simp [h0, ScanState.value, hi0, hdi]

theorem isDigits_iff_takeWhile (l : List Char) :
    isDigits l = true ↔ l.takeWhile isDecDigit ≠ [] ∧ l.dropWhile isDecDigit = [] := by
  rw [isDigits_iff, List.dropWhile_eq_nil_iff]
  constructor
  · rintro ⟨hne, hall⟩
    exact ⟨by rwa [List.takeWhile_eq_self_iff.2 hall], hall⟩
  · rintro ⟨hne, hall⟩
    exact ⟨by rwa [List.takeWhile_eq_self_iff.2 hall] at hne, hall⟩

theorem natScan_of_isDigits (l : List Char) (h : isDigits l = true) :
    natScan l 10 = Except.ok (decimalValue l, []) := by
  obtain ⟨h1, h2⟩ := (isDigits_iff_takeWhile l).1 h
  rw [natScan_ten, if_neg h1, h2, List.takeWhile_eq_self_iff.2 (List.dropWhile_eq_nil_iff.1 h2)]

theorem natScan_of_not_isDigits (l : List Char) (h : isDigits l = false) :
    natScan l 10 = Except.error ScanError.noDigits ∨
      ∃ v c t, natScan l 10 = Except.ok (v, c :: t) := by
  rw [natScan_ten]
  by_cases h1 : l.takeWhile isDecDigit = []
  · exact Or.inl (if_pos h1)
  · right
    rw [if_neg h1]
    cases h2 : l.dropWhile isDecDigit with
    | nil =>
      have := (isDigits_iff_takeWhile l).2 ⟨h1, h2⟩
      rw [h] at this
      exact absurd this (by simp)
    | cons c t => exact ⟨_, c, t, rfl⟩

theorem not_digit_of_sign (c : Char) (h : c = '+' ∨ c = '-') : isDecDigit c = false := by
  rcases h with h | h <;> subst h <;> decide

theorem isDigits_cons_sign (c : Char) (rest : List Char) (h : c = '+' ∨ c = '-') :
    isDigits (c :: rest) = false := by
  have := not_digit_of_sign c h
  simp [isDigits, this]

/-- A signed decimal numeral is parsed to the integer it denotes. -/
theorem SetString_of_signed (s : List Char) (h : isSignedDecimal s = true) :
    SetString s 10 = (some (denotedInt s), true) := by
  cases s with
  | nil => simp [isSignedDecimal] at h
  | cons c rest =>
    simp only [isSignedDecimal] at h
    by_cases hm : c = '-'
    · subst hm
      simp only [or_true, if_true] at h
      simp only [SetString, intScan, scanSign, if_true, natScan_of_isDigits rest h, denotedInt]
      by_cases h0 : 0 < decimalValue rest
      · simp only [h0, and_self, if_true]
        congr 2
        rw [Int.negSucc_eq]
        omega
      · have hz : decimalValue rest = 0 := by omega
        simp [hz]
    · by_cases hp : c = '+'
      · subst hp
        simp only [true_or, if_true] at h
        simp [SetString, intScan, scanSign, natScan_of_isDigits rest h, denotedInt]
      · simp only [hm, hp, or_self, if_false] at h
        simp [SetString, intScan, scanSign, hm, hp, natScan_of_isDigits (c :: rest) h,
          denotedInt]

/-- Anything else is refused with a nil result. -/
theorem SetString_of_not_signed (s : List Char) (h : isSignedDecimal s = false) :
    SetString s 10 = (none, false) := by
  cases s with
  | nil => simp [SetString, intScan, scanSign]
  | cons c rest =>
    simp only [isSignedDecimal] at h
    by_cases hm : c = '-'
    · subst hm
      simp only [or_true, if_true] at h
      rcases natScan_of_not_isDigits rest h with h1 | ⟨v, d, t, h1⟩ <;>
        simp [SetString, intScan, scanSign, h1]
    · by_cases hp : c = '+'
      · subst hp
        simp only [true_or, if_true] at h
        rcases natScan_of_not_isDigits rest h with h1 | ⟨v, d, t, h1⟩ <;>
          simp [SetString, intScan, scanSign, h1]
      · simp only [hm, hp, or_self, if_false] at h
        rcases natScan_of_not_isDigits (c :: rest) h with h1 | ⟨v, d, t, h1⟩ <;>
          simp [SetString, intScan, scanSign, hm, hp, h1]

/-! ## Printing in base 10 -/

theorem toNat_digitChar : ∀ d, d < 10 → (Char.ofNat (48 + d)).toNat = 48 + d := by decide

theorem itoaDigits_zero (fuel : Nat) (acc : List Char) : itoaDigits fuel 0 acc = acc := by
  cases fuel <;> simp [itoaDigits]

/-- With enough fuel the digits of `x` are those of `x / 10` followed by the
last digit. -/
theorem itoaDigits_eq (x : Nat) : ∀ (fuel : Nat) (acc : List Char), x ≤ fuel →
    itoaDigits fuel x acc = itoaDigits x x [] ++ acc := by
  induction x using Nat.strong_induction_on with
  | _ x ih =>
    intro fuel acc hfuel
    by_cases hx : x = 0
    · subst hx; simp [itoaDigits_zero]
    · obtain ⟨f, rfl⟩ : ∃ f, fuel = f + 1 := ⟨fuel - 1, by omega⟩
      obtain ⟨y, rfl⟩ : ∃ y, x = y + 1 := ⟨x - 1, by omega⟩
      have hdiv : (y + 1) / 10 < y + 1 := Nat.div_lt_self (by omega) (by norm_num)
      simp only [itoaDigits, hx, if_false]
      rw [ih _ hdiv f _ (by omega), ih _ hdiv y _ (by omega)]
      simp

theorem itoaDigits_pos (x : Nat) (hx : 0 < x) :
    itoaDigits x x [] = itoaDigits (x / 10) (x / 10) [] ++ [Char.ofNat (48 + x % 10)] := by
  obtain ⟨y, rfl⟩ : ∃ y, x = y + 1 := ⟨x - 1, by omega⟩
  have hdiv : (y + 1) / 10 < y + 1 := Nat.div_lt_self (by omega) (by norm_num)
  simp only [itoaDigits, Nat.succ_ne_zero, if_false]
  rw [itoaDigits_eq _ y _ (by omega)]

theorem itoaDigits_ne_nil (x : Nat) (hx : 0 < x) : itoaDigits x x [] ≠ [] := by
  rw [itoaDigits_pos x hx]; simp

/-- The printed digits are decimal digits and denote the number printed. -/
theorem itoaDigits_spec (x : Nat) :
    (∀ c ∈ itoaDigits x x [], isDecDigit c = true) ∧ decimalValue (itoaDigits x x []) = x := by
  induction x using Nat.strong_induction_on with
  | _ x ih =>
    by_cases hx : x = 0
    · subst hx; simp [itoaDigits, decimalValue]
    · have hpos : 0 < x := Nat.pos_of_ne_zero hx
      obtain ⟨ih1, ih2⟩ := ih (x / 10) (Nat.div_lt_self hpos (by norm_num))
      have hd := toNat_digitChar (x % 10) (Nat.mod_lt _ (by norm_num))
      rw [itoaDigits_pos x hpos]
      constructor
      · intro c hc
        rcases List.mem_append.1 hc with hc | hc
        · exact ih1 c hc
        · rw [List.mem_singleton] at hc
          subst hc
          simp only [isDecDigit, hd, decide_eq_true_eq]
          omega
      · simp only [decimalValue, List.foldl_append, List.foldl_cons, List.foldl_nil] at ih2 ⊢
        rw [ih2, hd]
        omega

theorem char_of_digit (c : Char) (h : isDecDigit c = true) :
    Char.ofNat (48 + (c.toNat - 48)) = c := by
  simp only [isDecDigit, decide_eq_true_eq] at h
  have : 48 + (c.toNat - 48) = c.toNat := by omega
  rw [this, Char.ofNat_toNat]

theorem digit_eq_zero_iff (c : Char) : c.toNat - 48 = 0 ∧ isDecDigit c = true ↔ c = '0' := by
  constructor
  · rintro ⟨h0, h⟩
    have := char_of_digit c h
    rw [h0] at this
    exact this.symm
  · rintro rfl
    decide

/-- Printing the value of a run of digits gives back the run without its
leading zeros. -/
theorem itoaDigits_decimalValue (ds : List Char) (hds : ∀ c ∈ ds, isDecDigit c = true) :
    itoaDigits (decimalValue ds) (decimalValue ds) [] = ds.dropWhile (fun d => d = '0') := by
  induction ds using List.reverseRecOn with
  | nil => simp [decimalValue, itoaDigits]
  | append_singleton l c ih =>
    have hl : ∀ d ∈ l, isDecDigit d = true := fun d hd => hds d (List.mem_append_left _ hd)
    have hc : isDecDigit c = true := hds c (List.mem_append_right _ (List.mem_singleton_self c))
    have ih := ih hl
    have hcl : c.toNat - 48 < 10 := by
      simp only [isDecDigit, decide_eq_true_eq] at hc; omega
    have hval : decimalValue (l ++ [c]) = decimalValue l * 10 + (c.toNat - 48) := by
      simp [decimalValue, List.foldl_append]
    rw [hval, List.dropWhile_append]
    by_cases hv : decimalValue l * 10 + (c.toNat - 48) = 0
    · have hl0 : decimalValue l = 0 := by omega
      have hc0 : c.toNat - 48 = 0 := by omega
      have hcz : c = '0' := (digit_eq_zero_iff c).1 ⟨hc0, hc⟩
      rw [hl0] at ih
      simp only [itoaDigits] at ih
      rw [hv, ← ih]
      simp [itoaDigits, hcz]
    · rw [itoaDigits_pos _ (Nat.pos_of_ne_zero hv)]
      have hdiv : (decimalValue l * 10 + (c.toNat - 48)) / 10 = decimalValue l := by omega
      have hmod : (decimalValue l * 10 + (c.toNat - 48)) % 10 = c.toNat - 48 := by omega
      rw [hdiv, hmod, char_of_digit c hc, ih]
      by_cases he : l.dropWhile (fun d => d = '0') = []
      · have hl0 : decimalValue l = 0 := by
          by_contra hne
          exact itoaDigits_ne_nil _ (Nat.pos_of_ne_zero hne) (ih.trans he)
        have hcz : c ≠ '0' := by
          intro hcz
          have := ((digit_eq_zero_iff c).2 hcz).1
          omega
        simp [he, hcz]
      · have : (l.dropWhile (fun d => d = '0')).isEmpty = false := by
          cases h : l.dropWhile (fun d => d = '0') with
          | nil => exact absurd h he
          | cons _ _ => rfl
        simp [this]

theorem dropWhile_zero_isEmpty (ds : List Char) (hds : ∀ c ∈ ds, isDecDigit c = true) :
    (ds.dropWhile (fun d => d = '0')).isEmpty = true ↔ decimalValue ds = 0 := by
  rw [← itoaDigits_decimalValue ds hds, List.isEmpty_iff]
  constructor
  · intro h
    by_contra hne
    exact itoaDigits_ne_nil _ (Nat.pos_of_ne_zero hne) h
  · intro h
    rw [h]
    rfl

theorem itoa_decimalValue (ds : List Char) (hds : ∀ c ∈ ds, isDecDigit c = true) (neg : Bool) :
    itoa (decimalValue ds) neg =
      if (ds.dropWhile (fun d => d = '0')).isEmpty then ['0']
      else (if neg then ['-'] else []) ++ ds.dropWhile (fun d => d = '0') := by
  by_cases h0 : decimalValue ds = 0
  · rw [if_pos ((dropWhile_zero_isEmpty ds hds).2 h0)]
    simp [itoa, h0]
  · have hne : ¬ (ds.dropWhile (fun d => d = '0')).isEmpty = true :=
      fun h => h0 ((dropWhile_zero_isEmpty ds hds).1 h)
    rw [if_neg hne, ← itoaDigits_decimalValue ds hds]
    simp [itoa, h0]

/-- Printing the integer a signed decimal numeral denotes gives the canonical
form of the numeral. -/
theorem bigString_denotedInt (s : List Char) (h : isSignedDecimal s = true) :
    bigString (denotedInt s) = String.mk (canonicalDecimal s) := by
  cases s with
  | nil => simp [isSignedDecimal] at h
  | cons c rest =>
    simp only [isSignedDecimal] at h
    unfold bigString
    congr 1
    by_cases hm : c = '-'
    · subst hm
      simp only [or_true, if_true] at h
      have hds := ((isDigits_iff rest).1 h).2
      have hden : denotedInt ('-' :: rest) = -(decimalValue rest : Int) := by
        simp [denotedInt]
      have hneg : decide (-(decimalValue rest : Int) < 0) = decide (0 < decimalValue rest) := by
        congr 1
        apply propext
        omega
      rw [hden, hneg, Int.natAbs_neg, Int.natAbs_ofNat, itoa_decimalValue rest hds]
      by_cases hz : (rest.dropWhile (fun d => d = '0')).isEmpty = true
      · simp [canonicalDecimal, hz]
      · have hpos : 0 < decimalValue rest :=
          Nat.pos_of_ne_zero (fun h0 => hz ((dropWhile_zero_isEmpty rest hds).2 h0))
        simp [canonicalDecimal, hz, hpos]
    · by_cases hp : c = '+'
      · subst hp
        simp only [true_or, if_true] at h
        have hds := ((isDigits_iff rest).1 h).2
        have hden : denotedInt ('+' :: rest) = (decimalValue rest : Int) := by
          simp [denotedInt]
        have hneg : decide ((decimalValue rest : Int) < 0) = false := by
          simp
        rw [hden, hneg, Int.natAbs_ofNat, itoa_decimalValue rest hds]
        by_cases hz : (rest.dropWhile (fun d => d = '0')).isEmpty = true
        · simp [canonicalDecimal, hz]
        · simp [canonicalDecimal, hz]
      · simp only [hm, hp, or_self, if_false] at h
        have hds := ((isDigits_iff (c :: rest)).1 h).2
        have hden : denotedInt (c :: rest) = (decimalValue (c :: rest) : Int) := by
          simp [denotedInt, hm, hp]
        have hneg : decide ((decimalValue (c :: rest) : Int) < 0) = false := by
          simp
        rw [hden, hneg, Int.natAbs_ofNat, itoa_decimalValue (c :: rest) hds]
        by_cases hz : ((c :: rest).dropWhile (fun d => d = '0')).isEmpty = true
        · simp only [canonicalDecimal, hm, hp, or_self, if_false, hz, if_true]
        · simp only [canonicalDecimal, hm, hp, or_self, if_false, hz, List.nil_append,
            Bool.false_eq_true]

/-- The base-10 rendering of an integer is a signed decimal numeral that
denotes it. -/
theorem itoa_signed (n : Int) :
    isSignedDecimal (itoa n.natAbs (decide (n < 0))) = true ∧
      denotedInt (itoa n.natAbs (decide (n < 0))) = n := by
  by_cases h0 : n.natAbs = 0
  · have hn : n = 0 := Int.natAbs_eq_zero.1 h0
    subst hn
    decide
  · have hpos : 0 < n.natAbs := Nat.pos_of_ne_zero h0
    obtain ⟨hd, hv⟩ := itoaDigits_spec n.natAbs
    have hne := itoaDigits_ne_nil n.natAbs hpos
    have hdig : isDigits (itoaDigits n.natAbs n.natAbs []) = true :=
      (isDigits_iff _).2 ⟨hne, hd⟩
    by_cases hneg : n < 0
    · simp only [itoa, h0, if_false, hneg, decide_True, if_true, List.singleton_append,
        isSignedDecimal, or_true, denotedInt, hv]
      exact ⟨hdig, by omega⟩
    · simp only [itoa, h0, if_false, hneg, decide_False, Bool.false_eq_true, List.nil_append]
      cases hl : itoaDigits n.natAbs n.natAbs [] with
      | nil => exact absurd hl hne
      | cons d t =>
        have hdd : isDecDigit d = true := hd d (by rw [hl]; exact List.mem_cons_self _ _)
        have hnm : d ≠ '-' := by
          intro hc; rw [not_digit_of_sign d (Or.inr hc)] at hdd; exact absurd hdd (by simp)
        have hnp : d ≠ '+' := by
          intro hc; rw [not_digit_of_sign d (Or.inl hc)] at hdd; exact absurd hdd (by simp)
        rw [hl] at hdig hv
        simp only [isSignedDecimal, denotedInt, hnm, hnp, or_self, if_false, hv]
        exact ⟨hdig, by omega⟩

/-! ## Claims about `StrToBigInt` -/

/-- C3: for every string that is an optional sign followed by one or more
decimal digits, `StrToBigInt` succeeds with the integer the string denotes, and
printing that integer in base 10 gives the canonical decimal form of the
string: the digits without leading zeros (`0` for zero), preceded by `-`
exactly when the string has a minus sign and a non-zero value. -/
theorem C3_StrToBigInt_decimal (s : String) (h : isSignedDecimal s.toList = true) :
    StrToBigInt s = (some (denotedInt s.toList), true) ∧
      bigString (denotedInt s.toList) = String.mk (canonicalDecimal s.toList) :=
  ⟨SetString_of_signed s.toList h, bigString_denotedInt s.toList h⟩

theorem C3_StrToBigInt_decimal_witness :
    StrToBigInt "-0012345678901234567890123" =
        (some (denotedInt "-0012345678901234567890123".toList), true) ∧
      bigString (denotedInt "-0012345678901234567890123".toList) =
        String.mk (canonicalDecimal "-0012345678901234567890123".toList) :=
  C3_StrToBigInt_decimal "-0012345678901234567890123" (by decide)

/-- C4: for every string that is not an optional sign followed by one or more
decimal digits, `StrToBigInt` returns a nil amount and `success = false`; the
result is an ordinary return value. -/
theorem C4_StrToBigInt_rejects (s : String) (h : isSignedDecimal s.toList = false) :
    StrToBigInt s = (none, false) :=
  SetString_of_not_signed s.toList h

theorem C4_StrToBigInt_rejects_witness : StrToBigInt "not_a_number" = (none, false) :=
  C4_StrToBigInt_rejects "not_a_number" (by decide)

/-- C10: for every integer `n`, of any size and sign, `StrToBigInt` applied to
the base-10 rendering of `n` returns `(n, true)`. -/
theorem C10_StrToBigInt_bigString (n : Int) : StrToBigInt (bigString n) = (some n, true) := by
  have h := itoa_signed n
  have := SetString_of_signed _ h.1
  rw [h.2] at this
  exact this

/-- The cases of `TestStrToBigInt`, and inputs the parser refuses. -/
theorem StrToBigInt_examples :
    StrToBigInt "123456789" = (some 123456789, true) ∧
    StrToBigInt "not_a_number" = (none, false) ∧
    StrToBigInt "" = (none, false) ∧ StrToBigInt "-" = (none, false) ∧
    StrToBigInt "1_000" = (none, false) ∧ StrToBigInt " 1" = (none, false) ∧
    StrToBigInt "1 " = (none, false) ∧ StrToBigInt "12a" = (none, false) ∧
    StrToBigInt "+5" = (some 5, true) ∧ StrToBigInt "-0" = (some 0, true) ∧
    StrToBigInt "-340282366920938463463374607431768211456" =
      (some (-340282366920938463463374607431768211456), true) := by
  decide

/-! ## Shape of the accepted strings -/

theorem segment_chars (sep : Char) (seg : List Char) (h : IsSegment sep seg) :
    ∀ ch ∈ seg, isDecDigit ch = true ∨ ch = sep := by
  obtain ⟨a, b, ha, hb, rfl⟩ := h
  intro ch hch
  rcases List.mem_append.1 hch with h1 | h1
  · exact Or.inl (((isDigits_iff a).1 ha).2 ch h1)
  · rcases List.mem_cons.1 h1 with h2 | h2
    · exact Or.inr h2
    · exact Or.inl (((isDigits_iff b).1 hb).2 ch h2)

/-- A composite consists of digits, its separator and `&` only. -/
theorem composite_chars (sep : Char) (s : List Char) (h : IsComposite sep s) :
    ∀ ch ∈ s, isDecDigit ch = true ∨ ch = sep ∨ ch = '&' := by
  obtain ⟨segs, hne, hsegs, rfl⟩ := h
  cases segs with
  | nil => exact absurd rfl hne
  | cons seg rest =>
    rw [intercalate_amp_cons]
    intro ch hch
    rcases List.mem_append.1 hch with h1 | h1
    · rcases segment_chars sep seg (hsegs seg (List.mem_cons_self _ _)) ch h1 with h2 | h2
      · exact Or.inl h2
      · exact Or.inr (Or.inl h2)
    · obtain ⟨w, hw, hchw⟩ := List.mem_flatten.1 h1
      obtain ⟨t, ht, rfl⟩ := List.mem_map.1 hw
      rcases List.mem_cons.1 hchw with h2 | h2
      · exact Or.inr (Or.inr h2)
      · rcases segment_chars sep t (hsegs t (List.mem_cons_of_mem _ ht)) ch h2 with h3 | h3
        · exact Or.inl h3
        · exact Or.inr (Or.inl h3)

/-- A composite starts with a digit. -/
theorem composite_head (sep : Char) (s : List Char) (h : IsComposite sep s) :
    ∃ c t, s = c :: t ∧ isDecDigit c = true := by
  obtain ⟨segs, hne, hsegs, rfl⟩ := h
  cases segs with
  | nil => exact absurd rfl hne
  | cons seg rest =>
    obtain ⟨a, b, ha, hb, rfl⟩ := hsegs seg (List.mem_cons_self _ _)
    cases a with
    | nil => simp [isDigits] at ha
    | cons c t =>
      rw [isDigits_cons] at ha
      refine ⟨c, t ++ sep :: (b ++ (rest.map (fun u => '&' :: u)).flatten), ?_, ha.1⟩
      rw [intercalate_amp_cons]
      simp

theorem segment_last (sep : Char) (seg : List Char) (h : IsSegment sep seg) :
    ∃ t c, seg = t ++ [c] ∧ isDecDigit c = true := by
  obtain ⟨a, b, ha, hb, rfl⟩ := h
  obtain ⟨hbne, hball⟩ := (isDigits_iff b).1 hb
  refine ⟨a ++ sep :: b.dropLast, b.getLast hbne, ?_, hball _ (List.getLast_mem hbne)⟩
  rw [List.append_assoc, List.cons_append, List.dropLast_append_getLast]

/-- A composite ends with a digit. -/
theorem composite_last (sep : Char) (s : List Char) (h : IsComposite sep s) :
    ∃ t c, s = t ++ [c] ∧ isDecDigit c = true := by
  obtain ⟨segs, hne, hsegs, rfl⟩ := h
  induction segs with
  | nil => exact absurd rfl hne
  | cons seg rest ih =>
    cases rest with
    | nil =>
      obtain ⟨t, c, ht, hc⟩ := segment_last sep seg (hsegs seg (List.mem_cons_self _ _))
      exact ⟨t, c, by simp [List.intercalate, ht], hc⟩
    | cons seg2 rest2 =>
      obtain ⟨t, c, ht, hc⟩ := ih (by simp) (fun x hx => hsegs x (List.mem_cons_of_mem _ hx))
      refine ⟨seg ++ '&' :: t, c, ?_, hc⟩
      rw [intercalate_amp_cons] at ht ⊢
      simp only [List.map_cons, List.flatten_cons, List.cons_append, List.append_assoc]
      rw [← ht]

theorem not_erc1155_of_head (s : String) (c : Char) (t : List Char) (hs : s.toList = c :: t)
    (hc : isDecDigit c = false) : ¬ IsERC1155 s := by
  rintro (h | h) <;>
  · obtain ⟨d, u, hd, hdig⟩ := composite_head _ _ h
    rw [hs] at hd
    injection hd with h1 h2
    rw [h1, hdig] at hc
    exact absurd hc (by simp)

theorem not_erc1155_of_last (s : String) (c : Char) (t : List Char) (hs : s.toList = t ++ [c])
    (hc : isDecDigit c = false) : ¬ IsERC1155 s := by
  rintro (h | h) <;>
  · obtain ⟨u, d, hd, hdig⟩ := composite_last _ _ h
    rw [hs] at hd
    have := (List.append_inj' hd rfl).2
    injection this with h1 h2
    rw [h1, hdig] at hc
    exact absurd hc (by simp)

theorem not_erc1155_of_mixed (s : String) (h1 : '_' ∈ s.toList) (h2 : '-' ∈ s.toList) :
    ¬ IsERC1155 s := by
  rintro (h | h)
  · rcases composite_chars _ _ h '-' h2 with h3 | h3 | h3
    · exact absurd h3 (by decide)
    · exact absurd h3 (by decide)
    · exact absurd h3 (by decide)
  · rcases composite_chars _ _ h '_' h1 with h3 | h3 | h3
    · exact absurd h3 (by decide)
    · exact absurd h3 (by decide)
    · exact absurd h3 (by decide)

/-! ## Claims about `IsValidERC1155Format` -/

/-- C1: for every string `s`, `IsValidERC1155Format s` returns `true` if and
only if `s`, as a whole, is one or more segments joined by `&`, every segment
being a non-empty run of ASCII digits, a separator and a non-empty run of
ASCII digits, with the separator `_` in every segment or `-` in every segment;
otherwise it returns `false`. -/
theorem C1_IsValidERC1155Format_iff (s : String) :
    ((IsValidERC1155Format s).2 = Outcome.returned true ↔ IsERC1155 s) ∧
      ((IsValidERC1155Format s).2 = Outcome.returned false ↔ ¬ IsERC1155 s) := by
  rw [IsValidERC1155Format_eq, ← matchString_erc1155Re]
  cases erc1155Re.MatchString s <;> simp

/-- The examples of the specification for the validator. -/
theorem IsValidERC1155Format_examples :
    IsValidERC1155Format "955_921" = ([], Outcome.returned true) ∧
    IsValidERC1155Format "955-921" = ([], Outcome.returned true) ∧
    IsValidERC1155Format "955_921&1_2" = ([], Outcome.returned true) ∧
    IsValidERC1155Format "955_921&1-2" = ([], Outcome.returned false) ∧
    IsValidERC1155Format "" = ([], Outcome.returned false) ∧
    IsValidERC1155Format "abc_1" = ([], Outcome.returned false) := by
  decide

/-- The error branch of `IsValidERC1155Format`: when `regexp.Compile` returns a
nil expression and an error, the function logs `invalid regex` and then calls
`MatchString` on the nil expression, which panics, whatever the input. -/
theorem compile_failure_panics (e : ParseError) (str : String) :
    IsValidERC1155FormatWith (fun _ => (none, some e)) str =
      (["invalid regex"], Outcome.panicked) := by
  simp [IsValidERC1155FormatWith]

/-- C5, as stated, fails: after a failed construction of the pattern the
function does not return `false`; on the input `955_921` it logs and then
panics on the nil expression. -/
theorem C5_failure_branch_panics :
    IsValidERC1155FormatWith (fun _ => (none, some ParseError.missingParen)) "955_921" =
        (["invalid regex"], Outcome.panicked) ∧
      IsValidERC1155FormatWith (fun _ => (none, some ParseError.missingParen)) "955_921" ≠
        (["invalid regex"], Outcome.returned false) := by
  rw [compile_failure_panics]
  exact ⟨rfl, by simp⟩

/-- C5, amended: construction of the pattern does not fail, since
`regexp.Compile` accepts the constant pattern; so for every input string
`IsValidERC1155Format` logs nothing, does not panic, and returns `false`
exactly when the compiled pattern does not match the string. -/
theorem C5_construction_does_not_fail (str : String) :
    (∀ e, Compile erc1155Pattern ≠ (none, some e)) ∧
    (IsValidERC1155Format str).1 = [] ∧
    (IsValidERC1155Format str).2 ≠ Outcome.panicked ∧
    ((IsValidERC1155Format str).2 = Outcome.returned false ↔
      erc1155Re.MatchString str = false) := by
  refine ⟨?_, ?_, ?_, ?_⟩
  · intro e h
    rw [compile_erc1155Pattern] at h
    simp at h
  · rw [IsValidERC1155Format_eq]
  · rw [IsValidERC1155Format_eq]
    simp
  · rw [IsValidERC1155Format_eq]
    simp

/-- C8: `IsValidERC1155Format` rejects `a_b&c-d` and `a-b&c_d` for all strings
`a`, `b`, `c`, `d`, in particular for non-empty digit strings, and no accepted
string contains both separators. -/
theorem C8_mixed_separators_rejected (a b c d : String) :
    IsValidERC1155Format (a ++ "_" ++ b ++ "&" ++ c ++ "-" ++ d) = ([], Outcome.returned false) ∧
    IsValidERC1155Format (a ++ "-" ++ b ++ "&" ++ c ++ "_" ++ d) = ([], Outcome.returned false) ∧
    ∀ s : String, (IsValidERC1155Format s).2 = Outcome.returned true →
      ¬ ('_' ∈ s.toList ∧ '-' ∈ s.toList) := by
  refine ⟨?_, ?_, ?_⟩
  · rw [isValid_false_iff]
    apply not_erc1155_of_mixed <;> simp [String.toList]
  · rw [isValid_false_iff]
    apply not_erc1155_of_mixed <;> simp [String.toList]
  · intro s hs hmix
    have hacc : IsERC1155 s := by
      rw [← isValid_true_iff, IsValidERC1155Format_eq]
      rw [IsValidERC1155Format_eq] at hs
      simp only [Outcome.returned.injEq] at hs
      rw [hs]
    exact not_erc1155_of_mixed s hmix.1 hmix.2 hacc

/-- C9: `IsValidERC1155Format` rejects the empty string, and for every string
`s`, accepted or not, it rejects `s` followed by a newline, `s` followed by
`&`, `&` followed by `s`, and `s` with a leading or a trailing space. -/
theorem C9_partial_matches_rejected (s : String) :
    IsValidERC1155Format "" = ([], Outcome.returned false) ∧
    IsValidERC1155Format (s ++ "\n") = ([], Outcome.returned false) ∧
    IsValidERC1155Format (s ++ "&") = ([], Outcome.returned false) ∧
    IsValidERC1155Format ("&" ++ s) = ([], Outcome.returned false) ∧
    IsValidERC1155Format (" " ++ s) = ([], Outcome.returned false) ∧
    IsValidERC1155Format (s ++ " ") = ([], Outcome.returned false) := by
  refine ⟨by decide, ?_, ?_, ?_, ?_, ?_⟩
  · rw [isValid_false_iff]
    exact not_erc1155_of_last _ '\n' s.toList (by simp [String.toList]) (by decide)
  · rw [isValid_false_iff]
    exact not_erc1155_of_last _ '&' s.toList (by simp [String.toList]) (by decide)
  · rw [isValid_false_iff]
    exact not_erc1155_of_head _ '&' s.toList (by simp [String.toList]) (by decide)
  · rw [isValid_false_iff]
    exact not_erc1155_of_head _ ' ' s.toList (by simp [String.toList]) (by decide)
  · rw [isValid_false_iff]
    exact not_erc1155_of_last _ ' ' s.toList (by simp [String.toList]) (by decide)

/-! ## The path read by `LoadConfiguration` -/

theorem cleanLoop_nil (rooted : Bool) (fuel : Nat) (out : List Char) (dotdot : Nat) :
    cleanLoop rooted fuel [] out dotdot = out := by
  cases fuel <;> simp [cleanLoop]

theorem cleanLoop_sep (r : Bool) (f : Nat) (rest out : List Char) (dd : Nat) :
    cleanLoop r (f + 1) ('/' :: rest) out dd = cleanLoop r f rest out dd := by
  rw [cleanLoop]
  simp [isPathSeparator]

theorem cleanLoop_dot (r : Bool) (f : Nat) (rest out : List Char) (dd : Nat)
    (h : rest = [] ∨ atSeparator rest = true) :
    cleanLoop r (f + 1) ('.' :: rest) out dd = cleanLoop r f rest out dd := by
  rw [cleanLoop]
  rw [if_neg (by decide : ¬ isPathSeparator '.' = true), if_pos ⟨rfl, h⟩]

theorem cleanLoop_dotdot (f : Nat) (rest out : List Char) (dd : Nat)
    (h : rest = [] ∨ atSeparator rest = true) (hd : dd < out.length) :
    cleanLoop false (f + 1) ('.' :: '.' :: rest) out dd =
      cleanLoop false f rest (out.take (backtrackLoop out dd (out.length - 1))) dd := by
  have h2 : ¬ ('.' = '.' ∧ ('.' :: rest = [] ∨ atSeparator ('.' :: rest) = true)) := by
    simp [atSeparator, isPathSeparator]
  rw [cleanLoop]
  rw [if_neg (by decide : ¬ isPathSeparator '.' = true), if_neg h2, if_pos ⟨rfl, rfl, h⟩,
    if_pos hd]
  rfl

theorem cleanLoop_elem (r : Bool) (f : Nat) (c : Char) (rest out : List Char) (dd : Nat)
    (hc : isPathSeparator c = false)
    (h1 : ¬ (c = '.' ∧ (rest = [] ∨ atSeparator rest = true)))
    (h2 : ¬ (c = '.' ∧ rest.head? = some '.' ∧ (rest.tail = [] ∨ atSeparator rest.tail = true))) :
    cleanLoop r (f + 1) (c :: rest) out dd =
      cleanLoop r f ((c :: rest).dropWhile (fun d => !isPathSeparator d))
        ((if (r = true ∧ out.length ≠ 1) ∨ ((!r) = true ∧ out.length ≠ 0) then out ++ ['/']
          else out) ++ (c :: rest).takeWhile (fun d => !isPathSeparator d)) dd := by
  rw [cleanLoop]
  rw [if_neg (by rw [hc]; simp), if_neg h1, if_neg h2]

theorem cleanLoop_configs_prefix (f : Nat) (b : List Char) :
    cleanLoop false (f + 4)
      ('.' :: '/' :: 'c' :: 'o' :: 'n' :: 'f' :: 'i' :: 'g' :: 's' :: '/' :: b) [] 0 =
    cleanLoop false f b ['c', 'o', 'n', 'f', 'i', 'g', 's'] 0 := by
  rw [cleanLoop_dot false (f + 3) _ _ _ (Or.inr (by rfl)), cleanLoop_sep,
    cleanLoop_elem false (f + 1) 'c' _ _ _ (by decide) (by simp) (by simp)]
  have ht : List.takeWhile (fun d => !isPathSeparator d)
      ('c' :: 'o' :: 'n' :: 'f' :: 'i' :: 'g' :: 's' :: '/' :: b) =
      ['c', 'o', 'n', 'f', 'i', 'g', 's'] := by
    simp [List.takeWhile, isPathSeparator]
  have hd : List.dropWhile (fun d => !isPathSeparator d)
      ('c' :: 'o' :: 'n' :: 'f' :: 'i' :: 'g' :: 's' :: '/' :: b) = '/' :: b := by
    simp [List.dropWhile, isPathSeparator]
  rw [ht, hd, cleanLoop_sep]
  simp

theorem atSeparator_of_no_sep (l : List Char) (hs : ∀ c ∈ l, isPathSeparator c = false) :
    ¬ atSeparator l = true := by
  cases l with
  | nil => simp [atSeparator]
  | cons d t => simp [atSeparator, hs d (List.mem_cons_self _ _)]

/-- Cleaning `./configs/<name>` for a name without separator: the dot names
`.` and `..` are resolved, any other name is kept. -/
theorem clean_configs_name (b : List Char) (hb : b ≠ [])
    (hs : ∀ c ∈ b, isPathSeparator c = false) :
    cleanChars ('.' :: '/' :: 'c' :: 'o' :: 'n' :: 'f' :: 'i' :: 'g' :: 's' :: '/' :: b) =
      if b = ['.'] then ['c', 'o', 'n', 'f', 'i', 'g', 's']
      else if b = ['.', '.'] then ['.']
      else 'c' :: 'o' :: 'n' :: 'f' :: 'i' :: 'g' :: 's' :: '/' :: b := by
  have htake : b.takeWhile (fun d => !isPathSeparator d) = b :=
    List.takeWhile_eq_self_iff.2 (fun c hc => by simp [hs c hc])
  have hdrop : b.dropWhile (fun d => !isPathSeparator d) = [] :=
    List.dropWhile_eq_nil_iff.2 (fun c hc => by simp [hs c hc])
  have hfuel : ('.' :: '/' :: 'c' :: 'o' :: 'n' :: 'f' :: 'i' :: 'g' :: 's' :: '/' :: b).length + 1
      = (b.length + 7) + 4 := by
    simp only [List.length_cons]
  unfold cleanChars
  simp only
  rw [if_neg (by decide : ¬ isPathSeparator '.' = true), hfuel, cleanLoop_configs_prefix]
  by_cases h1 : b = ['.']
  · subst h1
    rw [if_pos rfl]
    rw [show [('.' : Char)].length + 7 = 7 + 1 from rfl, cleanLoop_dot _ _ _ _ _ (Or.inl rfl),
      cleanLoop_nil]
    simp
  · rw [if_neg h1]
    by_cases h2 : b = ['.', '.']
    · subst h2
      rw [if_pos rfl]
      rw [show [('.' : Char), '.'].length + 7 = 8 + 1 from rfl,
        cleanLoop_dotdot _ _ _ _ (Or.inl rfl) (by decide), cleanLoop_nil]
      decide
    · rw [if_neg h2]
      cases b with
      | nil => exact absurd rfl hb
      | cons c rest =>
        have hc : isPathSeparator c = false := hs c (List.mem_cons_self _ _)
        have hrest : ∀ d ∈ rest, isPathSeparator d = false :=
          fun d hd => hs d (List.mem_cons_of_mem _ hd)
        have hn1 : ¬ (c = '.' ∧ (rest = [] ∨ atSeparator rest = true)) := by
          rintro ⟨rfl, hr | hr⟩
          · exact h1 (by rw [hr])
          · exact atSeparator_of_no_sep rest hrest hr
        have hn2 : ¬ (c = '.' ∧ rest.head? = some '.' ∧
            (rest.tail = [] ∨ atSeparator rest.tail = true)) := by
          rintro ⟨rfl, hh, ht⟩
          cases rest with
          | nil => simp at hh
          | cons d u =>
            simp only [List.head?_cons, Option.some.injEq] at hh
            subst hh
            rcases ht with ht | ht
            · simp only [List.tail_cons] at ht
              exact h2 (by rw [ht])
            · exact atSeparator_of_no_sep u
                (fun e he => hrest e (List.mem_cons_of_mem _ he)) ht
        rw [show (c :: rest).length + 7 = (rest.length + 7) + 1 from by
          rw [List.length_cons]]
        rw [cleanLoop_elem _ _ _ _ _ _ hc hn1 hn2, htake, hdrop, cleanLoop_nil]
        simp

/-- What `filepath.Base` returns: a single separator, or a non-empty name
without separator. -/
theorem baseChars_cases (p : List Char) :
    baseChars p = ['/'] ∨ (baseChars p ≠ [] ∧ ∀ c ∈ baseChars p, isPathSeparator c = false) := by
  unfold baseChars
  by_cases hp : p = []
  · right; simp [hp, isPathSeparator]
  · simp only [hp, if_false]
    by_cases h2 : (List.takeWhile (fun c => !isPathSeparator c)
        (p.reverse.dropWhile isPathSeparator).reverse.reverse).reverse = []
    · left; simp only [h2, if_true]
    · right
      simp only [h2, if_false]
      refine ⟨by simpa using h2, ?_⟩
      intro c hc
      have := List.mem_takeWhile_imp (List.mem_reverse.1 hc)
      simpa using this

/-- The path `LoadConfiguration` reads, for every filename: the parent `.` of
the base directory when the last element of the filename is `..`, the base
directory `configs` when it is `.` or the filename has no element at all, and
`configs/<last element>` in every other case. -/
theorem normalizedPath_eq (filename : String) :
    normalizedPath filename =
      if Base filename = ".." then "."
      else if Base filename = "." ∨ Base filename = "/" then "configs"
      else "configs/" ++ Base filename := by
  have hjoin : normalizedPath filename =
      String.mk (cleanChars ('.' :: '/' :: 'c' :: 'o' :: 'n' :: 'f' :: 'i' :: 'g' :: 's' :: '/' ::
        baseChars filename.toList)) := by
    simp [normalizedPath, Join, joinChars, baseDir, Base, String.toList, List.dropWhile,
      List.intercalate]
  have hbase : ∀ l : List Char, Base filename = String.mk l ↔ baseChars filename.toList = l := by
    intro l
    unfold Base
    constructor
    · intro h; injection h
    · intro h; rw [h]
  rw [hjoin]
  rcases baseChars_cases filename.toList with h | ⟨hne, hs⟩
  · have h1 : ¬ Base filename = ".." := by
      rw [show (".." : String) = String.mk ['.', '.'] from rfl, hbase, h]; decide
    have h2 : Base filename = "/" := by
      rw [show ("/" : String) = String.mk ['/'] from rfl, hbase, h]
    rw [if_neg h1, if_pos (Or.inr h2), h]
    decide
  · rw [clean_configs_name _ hne hs]
    by_cases hd : baseChars filename.toList = ['.']
    · have h1 : ¬ Base filename = ".." := by
        rw [show (".." : String) = String.mk ['.', '.'] from rfl, hbase, hd]; decide
      have h2 : Base filename = "." := by
        rw [show ("." : String) = String.mk ['.'] from rfl, hbase, hd]
      rw [if_pos hd, if_neg h1, if_pos (Or.inl h2)]
    · rw [if_neg hd]
      by_cases hdd : baseChars filename.toList = ['.', '.']
      · have h1 : Base filename = ".." := by
          rw [show (".." : String) = String.mk ['.', '.'] from rfl, hbase, hdd]
        rw [if_pos hdd, if_pos h1]
      · have h1 : ¬ Base filename = ".." := by
          rw [show (".." : String) = String.mk ['.', '.'] from rfl, hbase]; exact hdd
        have h2 : ¬ (Base filename = "." ∨ Base filename = "/") := by
          rw [show ("." : String) = String.mk ['.'] from rfl,
            show ("/" : String) = String.mk ['/'] from rfl, hbase, hbase]
          rintro (h | h)
          · exact hd h
          · have := hs '/' (by rw [h]; simp)
            simp [isPathSeparator] at this
        rw [if_neg hdd, if_neg h1, if_neg h2]
        apply String.ext
        simp [Base, String.toList]

/-! ## Claims about `LoadConfiguration` -/

/-- C2 (the code departs from the claim): the path `LoadConfiguration` reads
is the parent `.` of the base directory for the filenames `..` and `a/..`, and
the base directory `configs` itself for the empty filename, for `.` and for
`/`; it is beneath `configs` for filenames such as `../../etc/passwd`. -/
theorem C2_normalizedPath_at_dot_names :
    normalizedPath ".." = "." ∧ normalizedPath "a/.." = "." ∧
    normalizedPath "" = "configs" ∧ normalizedPath "." = "configs" ∧
    normalizedPath "/" = "configs" ∧
    normalizedPath "../../etc/passwd" = "configs/passwd" ∧
    normalizedPath "conf.json/" = "configs/conf.json" := by
  decide

/-- C6: for every filename, file system and decoder, `LoadConfiguration`
returns either a non-nil configuration with a nil error, which happens when the
read and the decode both succeed, or a nil configuration with a non-nil error,
which happens when the read fails or the decode fails. -/
theorem C6_LoadConfiguration_one_result (env : Env) (filename : String) :
    (∃ data config, env.ReadFile (normalizedPath filename) = Except.ok data ∧
        env.Unmarshal data = Except.ok config ∧
        LoadConfiguration env filename = (some config, none)) ∨
    (∃ err, ((∃ e, env.ReadFile (normalizedPath filename) = Except.error e) ∨
          (∃ data e, env.ReadFile (normalizedPath filename) = Except.ok data ∧
            env.Unmarshal data = Except.error e)) ∧
        LoadConfiguration env filename = (none, some err)) := by
  unfold LoadConfiguration
  cases hread : env.ReadFile (normalizedPath filename) with
  | error e => exact Or.inr ⟨e, Or.inl ⟨e, rfl⟩, rfl⟩
  | ok data =>
    dsimp only
    cases hdec : env.Unmarshal data with
    | error e => exact Or.inr ⟨_, Or.inr ⟨data, e, rfl, hdec⟩, rfl⟩
    | ok config => exact Or.inl ⟨data, config, rfl, hdec, rfl⟩

/-- The bytes of the sample document are the character codes of its text. -/
theorem sampleDocument_text :
    sampleDocument = sampleDocumentText.toList.map (fun c => c.toNat.toUInt8) := by
  decide

/-- C7 (the code departs from the claim): a well-formed configuration
document in the temporary file `/tmp/example1`, outside `./configs`, is not
loaded; `LoadConfiguration` reads `configs/example1` instead and returns a nil
configuration with the read error. -/
theorem C7_file_outside_configs_not_loaded :
    tmpFileEnv.ReadFile "/tmp/example1" = Except.ok sampleDocument ∧
    tmpFileEnv.Unmarshal sampleDocument = Except.ok sampleConfiguration ∧
    normalizedPath "/tmp/example1" = "configs/example1" ∧
    LoadConfiguration tmpFileEnv "/tmp/example1" =
      (none, some (GoError.lib "open: no such file or directory")) :=
  ⟨rfl, rfl, by decide, rfl⟩

/-- What `LoadConfiguration` does load: if the file at
`filepath.Join("./configs", filepath.Base(filename))` can be read and its
contents decode to a configuration, that configuration is returned with a nil
error. -/
theorem LoadConfiguration_reads_configs (env : Env) (filename : String)
    (data : List UInt8) (config : Configuration)
    (hread : env.ReadFile (normalizedPath filename) = Except.ok data)
    (hdec : env.Unmarshal data = Except.ok config) :
    LoadConfiguration env filename = (some config, none) := by
  simp [LoadConfiguration, hread, hdec]

/-- The same document under `configs/example1` is loaded, also when the
filename names the temporary file. -/
theorem LoadConfiguration_reads_configs_example :
    LoadConfiguration configsEnv "/tmp/example1" = (some sampleConfiguration, none) :=
  LoadConfiguration_reads_configs configsEnv "/tmp/example1" sampleDocument
    sampleConfiguration rfl rfl

/-- C11: the error `LoadConfiguration` returns tells the stage that failed.
When the read fails with `e` the result is `e` itself, whatever the decoder is
(the decoder is not consulted); when the read succeeds and the decode fails with
`p` the result is `fmt.Errorf(shared.ErrUnmarshalJSON, p)`, which is not `p`. -/
theorem C11_LoadConfiguration_error_stage (env : Env) (filename : String) :
    (∀ e, env.ReadFile (normalizedPath filename) = Except.error e →
      ∀ unmarshal, LoadConfiguration (env.withUnmarshal unmarshal) filename = (none, some e)) ∧
    (∀ data p, env.ReadFile (normalizedPath filename) = Except.ok data →
      env.Unmarshal data = Except.error p →
      LoadConfiguration env filename = (none, some (GoError.errorf env.ErrUnmarshalJSON p)) ∧
        GoError.errorf env.ErrUnmarshalJSON p ≠ p) := by
  constructor
  · intro e hread unmarshal
    simp [LoadConfiguration, Env.withUnmarshal, hread]
  · intro data p hread hdec
    refine ⟨by simp [LoadConfiguration, hread, hdec], ?_⟩
    intro h
    have hsize := congrArg sizeOf h
    simp only [GoError.errorf.sizeOf_spec] at hsize
    omega

theorem C11_LoadConfiguration_error_stage_witness :
    LoadConfiguration (tmpFileEnv.withUnmarshal (fun _ => Except.ok sampleConfiguration))
        "/tmp/example1" = (none, some (GoError.lib "open: no such file or directory")) ∧
    LoadConfiguration invalidJsonEnv "bad.json" =
      (none, some (GoError.errorf "error unmarshalling JSON: %v"
        (GoError.lib "invalid character 'i' looking for beginning of value"))) :=
  ⟨(C11_LoadConfiguration_error_stage tmpFileEnv "/tmp/example1").1 _ rfl _,
    ((C11_LoadConfiguration_error_stage invalidJsonEnv "bad.json").2 _ _ rfl rfl).1⟩

/-- C15: if two filenames have the same last element (`filepath.Base`),
`LoadConfiguration` reads the same path for both and, on the same file system
and decoder, returns the same result. -/
theorem C15_LoadConfiguration_base_only (env : Env) (f g : String) (h : Base f = Base g) :
    normalizedPath f = normalizedPath g ∧
      LoadConfiguration env f = LoadConfiguration env g := by
  have hp : normalizedPath f = normalizedPath g := by
    unfold normalizedPath
    rw [h]
  exact ⟨hp, by unfold LoadConfiguration; rw [hp]⟩

theorem C15_LoadConfiguration_base_only_witness :
    normalizedPath "/tmp/example1" = normalizedPath "../../etc/example1" ∧
      LoadConfiguration configsEnv "/tmp/example1" =
        LoadConfiguration configsEnv "../../etc/example1" :=
  C15_LoadConfiguration_base_only configsEnv "/tmp/example1" "../../etc/example1" (by decide)

/-! ## Further claims about `IsValidERC1155Format` and `StrToBigInt` -/

/-- C14: the pattern of `IsValidERC1155Format` is a well-formed constant:
`regexp.Compile` returns an expression and a nil error for it, so for every
input string nothing is logged, the nil expression is never dereferenced, and
the function returns a boolean. -/
theorem C14_IsValidERC1155Format_total (str : String) :
    (Compile erc1155Pattern).1 = some erc1155Re ∧ (Compile erc1155Pattern).2 = none ∧
      ∃ b : Bool, IsValidERC1155Format str = ([], Outcome.returned b) := by
  refine ⟨by rw [compile_erc1155Pattern], by rw [compile_erc1155Pattern], ?_⟩
  exact ⟨erc1155Re.MatchString str, IsValidERC1155Format_eq str⟩

theorem decimalValue_zero_cons (l : List Char) : decimalValue ('0' :: l) = decimalValue l := by
  simp [decimalValue]

theorem isDigits_zero_cons (l : List Char) (h : isDigits l = true) :
    isDigits ('0' :: l) = true := by
  rw [isDigits_cons]
  exact ⟨by decide, ((isDigits_iff l).1 h).2⟩

/-- A run of digits is parsed to the number it denotes. -/
theorem SetString_of_isDigits (l : List Char) (h : isDigits l = true) :
    SetString l 10 = (some (decimalValue l : Int), true) := by
  cases l with
  | nil => simp [isDigits] at h
  | cons c t =>
    have hc : isDecDigit c = true := ((isDigits_cons c t).1 h).1
    have hnm : c ≠ '-' := by
      intro hc2; rw [not_digit_of_sign c (Or.inr hc2)] at hc; exact absurd hc (by simp)
    have hnp : c ≠ '+' := by
      intro hc2; rw [not_digit_of_sign c (Or.inl hc2)] at hc; exact absurd hc (by simp)
    have hs : isSignedDecimal (c :: t) = true := by
      simp only [isSignedDecimal, hnm, hnp, or_self, if_false]
      exact h
    rw [SetString_of_signed _ hs]
    simp [denotedInt, hnm, hnp]

/-- C18: for every non-empty string `d` of decimal digits with value `v`,
`StrToBigInt` succeeds with `v` on `d`, on `0` followed by `d` and on `+`
followed by `d`, and succeeds with `-v` on `-` followed by `d`. -/
theorem C18_StrToBigInt_prefixes (d : String) (h : isDigits d.toList = true) :
    StrToBigInt d = (some (decimalValue d.toList : Int), true) ∧
    StrToBigInt ("0" ++ d) = (some (decimalValue d.toList : Int), true) ∧
    StrToBigInt ("+" ++ d) = (some (decimalValue d.toList : Int), true) ∧
    StrToBigInt ("-" ++ d) = (some (-(decimalValue d.toList : Int)), true) := by
  refine ⟨SetString_of_isDigits _ h, ?_, ?_, ?_⟩
  · have h0 : ("0" ++ d).toList = '0' :: d.toList := by simp [String.toList]
    unfold StrToBigInt
    rw [h0, SetString_of_isDigits _ (isDigits_zero_cons _ h), decimalValue_zero_cons]
  · have h0 : ("+" ++ d).toList = '+' :: d.toList := by simp [String.toList]
    unfold StrToBigInt
    rw [h0, SetString_of_signed _ (by simpa [isSignedDecimal] using h)]
    simp [denotedInt]
  · have h0 : ("-" ++ d).toList = '-' :: d.toList := by simp [String.toList]
    unfold StrToBigInt
    rw [h0, SetString_of_signed _ (by simpa [isSignedDecimal] using h)]
    simp [denotedInt]

theorem C18_StrToBigInt_prefixes_witness :
    StrToBigInt "0" = (some (decimalValue "0".toList : Int), true) ∧
    StrToBigInt ("0" ++ "0") = (some (decimalValue "0".toList : Int), true) ∧
    StrToBigInt ("+" ++ "0") = (some (decimalValue "0".toList : Int), true) ∧
    StrToBigInt ("-" ++ "0") = (some (-(decimalValue "0".toList : Int)), true) :=
  C18_StrToBigInt_prefixes "0" (by decide)

/-! ## Claims about the functions modelled from the specification -/

theorem lookup_filter_of_not_mem {ν : Type} (q : String × ν → Bool) (k : String) :
    ∀ l : List (String × ν), k ∉ l.map Prod.fst → (l.filter q).lookup k = none := by
  intro l
  induction l with
  | nil => intro _; rfl
  | cons p t ih =>
    intro hk
    simp only [List.map_cons, List.mem_cons, not_or] at hk
    have hne : (k == p.1) = false := by simpa using hk.1
    by_cases hq : q p = true
    · rw [List.filter_cons_of_pos hq]
      obtain ⟨p1, p2⟩ := p
      simp only [List.lookup_cons, hne]
      exact ih hk.2
    · rw [List.filter_cons_of_neg hq]
      exact ih hk.2

/-- On a map with distinct keys, filtering the bindings filters the lookup. -/
theorem lookup_filter_of_nodup {ν : Type} (q : String × ν → Bool) (k : String) :
    ∀ l : List (String × ν), (l.map Prod.fst).Nodup →
      (l.filter q).lookup k = (l.lookup k).filter (fun e => q (k, e)) := by
  intro l
  induction l with
  | nil => intro _; rfl
  | cons p t ih =>
    intro hnd
    obtain ⟨p1, p2⟩ := p
    simp only [List.map_cons, List.nodup_cons] at hnd
    by_cases hk : k = p1
    · subst hk
      by_cases hq : q (k, p2) = true
      · rw [List.filter_cons_of_pos hq]
        simp [List.lookup_cons, Option.filter, hq]
      · rw [List.filter_cons_of_neg hq, lookup_filter_of_not_mem q k t hnd.1]
        simp [List.lookup_cons, Option.filter, hq]
    · have hne : (k == p1) = false := by simpa using hk
      by_cases hq : q (p1, p2) = true
      · rw [List.filter_cons_of_pos hq]
        simp only [List.lookup_cons, hne]
        exact ih hnd.2
      · rw [List.filter_cons_of_neg hq]
        simp only [List.lookup_cons, hne]
        exact ih hnd.2

/-- C12: for every network `n`, address `a` and mapping `m`, a collection id
`k` is bound to `e` in `GetCrosschainData n a m` if and only if it is bound to
`e` in `m` and `e` has an entry for `n` with value `a`; the result keeps the
order of `m`; it is the empty mapping when no entry qualifies; and when the
collection ids of `m` are distinct, looking `k` up in the result gives `m[k]`,
unchanged, exactly when `m[k]` qualifies. -/
theorem C12_GetCrosschainData_subset (n a : String) (m : List (String × NetworkContractMap)) :
    (∀ k e, (k, e) ∈ GetCrosschainData n a m ↔ (k, e) ∈ m ∧ e.lookup n = some a) ∧
    List.Sublist (GetCrosschainData n a m) m ∧
    ((∀ p ∈ m, p.2.lookup n ≠ some a) → GetCrosschainData n a m = []) ∧
    ((m.map Prod.fst).Nodup → ∀ k, (GetCrosschainData n a m).lookup k =
      (m.lookup k).filter (fun e => decide (e.lookup n = some a))) := by
  refine ⟨?_, ?_, ?_, ?_⟩
  · intro k e
    simp [GetCrosschainData, List.mem_filter]
  · exact List.filter_sublist _
  · intro h
    simp only [GetCrosschainData, List.filter_eq_nil_iff, decide_eq_true_eq]
    exact h
  · intro hnd k
    exact lookup_filter_of_nodup _ k m hnd

/-- The cases of `TestGetCrosschainData`. -/
theorem GetCrosschainData_test_cases :
    GetCrosschainData "eth" "0x1" testCollections =
      [("1", [("arb", "0x3"), ("eth", "0x1"), ("trn", "0x2"), ("none", "0x8")])] ∧
    GetCrosschainData "trn" "0x2" testCollections =
      [("1", [("arb", "0x3"), ("eth", "0x1"), ("trn", "0x2"), ("none", "0x8")])] ∧
    GetCrosschainData "frame" "0x6" testCollections =
      [("2", [("eth", "0x4"), ("frame", "0x6"), ("trn", "0x5")])] ∧
    GetCrosschainData "unknown" "0x7" testCollections = [] := by
  decide

theorem countGroup_eq (first : Int) (rest : List Int) :
    countGroup (first :: rest) = ((first :: rest).count first : Int) := by
  simp only [countGroup, List.count_eq_countP, List.countP_eq_length_filter]
  congr 2

/-- C13: for every sequence of non-empty groups of big integers,
`CountElements` returns a non-nil sequence with one count per group, in the
order of the groups, whose `i`-th count is the number of elements of group `i`
equal to the first element of group `i`; for the empty sequence it returns an
empty, non-nil sequence. -/
theorem C13_CountElements_counts (lists : List (List Int)) (h : ∀ g ∈ lists, g ≠ []) :
    CountElements [] = some [] ∧
    ∃ counts : List Int, CountElements lists = some counts ∧
      counts.length = lists.length ∧
      ∀ (i : Nat) (g : List Int), lists[i]? = some g →
        ∃ first, g.head? = some first ∧ counts[i]? = some (g.count first : Int) := by
  refine ⟨rfl, lists.map countGroup, rfl, by simp, ?_⟩
  intro i g hg
  have hmem : g ∈ lists := List.getElem?_mem hg
  cases g with
  | nil => exact absurd rfl (h [] hmem)
  | cons first rest =>
    refine ⟨first, rfl, ?_⟩
    rw [List.getElem?_map, hg, Option.map_some', countGroup_eq]

theorem C13_CountElements_counts_witness :
    CountElements [] = some [] ∧
    ∃ counts : List Int, CountElements [[955, 921, 921], [900]] = some counts ∧
      counts.length = [[(955 : Int), 921, 921], [900]].length ∧
      ∀ (i : Nat) (g : List Int), [[(955 : Int), 921, 921], [900]][i]? = some g →
        ∃ first, g.head? = some first ∧ counts[i]? = some (g.count first : Int) :=
  C13_CountElements_counts [[955, 921, 921], [900]] (by decide)

/-- The modelled `CountElements` on the input of `TestCountElements`: only
`955` equals the first element of the first group. -/
theorem CountElements_test_input :
    CountElements [[955, 921, 921], [900]] = some [1, 1] := by
  decide

/-! ## Joining and splitting accepted strings -/

theorem flatten_map_amp (seg : List Char) (segs : List (List Char)) :
    ((seg :: segs).map (fun t => '&' :: t)).flatten = '&' :: List.intercalate ['&'] (seg :: segs) := by
  rw [intercalate_amp_cons]
  simp

theorem intercalate_amp_append (l1 l2 : List (List Char)) (h1 : l1 ≠ []) (h2 : l2 ≠ []) :
    List.intercalate ['&'] (l1 ++ l2) =
      List.intercalate ['&'] l1 ++ '&' :: List.intercalate ['&'] l2 := by
  cases l1 with
  | nil => exact absurd rfl h1
  | cons s1 r1 =>
    cases l2 with
    | nil => exact absurd rfl h2
    | cons s2 r2 =>
      rw [List.cons_append, intercalate_amp_cons, intercalate_amp_cons, List.map_append,
        List.flatten_append, flatten_map_amp, List.append_assoc]

theorem segment_no_amp (sep : Char) (hsep : sep ≠ '&') (seg : List Char)
    (h : IsSegment sep seg) : '&' ∉ seg := by
  intro hmem
  rcases segment_chars sep seg h '&' hmem with h1 | h1
  · exact absurd h1 (by decide)
  · exact hsep h1.symm

theorem segment_has_sep (sep : Char) (seg : List Char) (h : IsSegment sep seg) : sep ∈ seg := by
  obtain ⟨a, b, _, _, rfl⟩ := h
  simp

theorem composite_has_sep (sep : Char) (s : List Char) (h : IsComposite sep s) : sep ∈ s := by
  obtain ⟨segs, hne, hsegs, rfl⟩ := h
  cases segs with
  | nil => exact absurd rfl hne
  | cons seg rest =>
    rw [intercalate_amp_cons]
    exact List.mem_append_left _ (segment_has_sep sep seg (hsegs seg (List.mem_cons_self _ _)))

/-- Two composites with the same separator, joined by `&`, form a composite. -/
theorem composite_join (sep : Char) (a b : List Char) (ha : IsComposite sep a)
    (hb : IsComposite sep b) : IsComposite sep (a ++ '&' :: b) := by
  obtain ⟨sa, hna, hsa, rfl⟩ := ha
  obtain ⟨sb, hnb, hsb, rfl⟩ := hb
  refine ⟨sa ++ sb, by simp [hna], ?_, (intercalate_amp_append sa sb hna hnb).symm⟩
  intro seg hseg
  rcases List.mem_append.1 hseg with h | h
  · exact hsa seg h
  · exact hsb seg h

/-- A composite cut at one of its `&` gives two composites. -/
theorem composite_split (sep : Char) (hsep : sep ≠ '&') (b : List Char) :
    ∀ (segs : List (List Char)) (a : List Char), segs ≠ [] →
      (∀ seg ∈ segs, IsSegment sep seg) → List.intercalate ['&'] segs = a ++ '&' :: b →
      IsComposite sep a ∧ IsComposite sep b := by
  intro segs
  induction segs with
  | nil => intro a hne; exact absurd rfl hne
  | cons seg rest ih =>
    intro a _ hsegs heq
    have hseg : IsSegment sep seg := hsegs seg (List.mem_cons_self _ _)
    have hrest : ∀ t ∈ rest, IsSegment sep t := fun t ht => hsegs t (List.mem_cons_of_mem _ ht)
    have hone : IsComposite sep seg :=
      ⟨[seg], by simp, fun t ht => by rw [List.mem_singleton.1 ht]; exact hseg,
        by simp [List.intercalate]⟩
    rw [intercalate_amp_cons] at heq
    -- the case where `a` ends exactly at the end of `seg`
    have hexact : (rest.map (fun t => '&' :: t)).flatten = '&' :: b →
        IsComposite sep seg ∧ IsComposite sep b := by
      intro hF
      cases rest with
      | nil => simp at hF
      | cons r rs =>
        rw [flatten_map_amp] at hF
        injection hF with _ hb
        exact ⟨hone, r :: rs, by simp, hrest, hb.symm⟩
    rcases List.append_eq_append_iff.1 heq with ⟨a', ha, hF⟩ | ⟨c', hs, hF⟩
    · cases a' with
      | nil =>
        rw [List.append_nil] at ha
        rw [List.nil_append] at hF
        rw [ha]
        exact hexact hF
      | cons x a'' =>
        cases rest with
        | nil => simp at hF
        | cons r rs =>
          rw [flatten_map_amp] at hF
          injection hF with hx hF2
          obtain ⟨h1, h2⟩ := ih a'' (by simp) hrest hF2
          refine ⟨?_, h2⟩
          rw [ha, ← hx]
          exact composite_join sep seg a'' hone h1
    · cases c' with
      | nil =>
        rw [List.append_nil] at hs
        rw [List.nil_append] at hF
        rw [← hs]
        exact hexact hF.symm
      | cons x c'' =>
        injection hF with hx _
        exfalso
        apply segment_no_amp sep hsep seg hseg
        rw [hs, hx]
        simp

theorem composite_split_iff (sep : Char) (hsep : sep ≠ '&') (a b : List Char) :
    IsComposite sep (a ++ '&' :: b) ↔ IsComposite sep a ∧ IsComposite sep b := by
  constructor
  · rintro ⟨segs, hne, hsegs, heq⟩
    exact composite_split sep hsep b segs a hne hsegs heq.symm
  · rintro ⟨ha, hb⟩
    exact composite_join sep a b ha hb

/-- The separator of a composite is the only one of `_`, `-` that occurs in it. -/
theorem composite_sep_unique (sa sep : Char) (s : List Char) (h : IsComposite sa s)
    (hsep : sep = '_' ∨ sep = '-') (hmem : sep ∈ s) : sep = sa := by
  rcases composite_chars sa s h sep hmem with h1 | h1 | h1
  · rcases hsep with rfl | rfl <;> exact absurd h1 (by decide)
  · exact h1
  · rcases hsep with rfl | rfl <;> exact absurd h1 (by decide)

theorem isValid_outcome_true_iff (s : String) :
    (IsValidERC1155Format s).2 = Outcome.returned true ↔ IsERC1155 s := by
  rw [IsValidERC1155Format_eq, ← matchString_erc1155Re]
  cases erc1155Re.MatchString s <;> simp

/-- C16: for all strings `a` and `b`, `IsValidERC1155Format` accepts `a`
followed by `&` followed by `b` if and only if it accepts `a`, accepts `b`, and
one of the separators `_`, `-` occurs in both. -/
theorem C16_join_and_split (a b : String) :
    (IsValidERC1155Format (a ++ "&" ++ b)).2 = Outcome.returned true ↔
      (IsValidERC1155Format a).2 = Outcome.returned true ∧
      (IsValidERC1155Format b).2 = Outcome.returned true ∧
      ∃ sep : Char, (sep = '_' ∨ sep = '-') ∧ sep ∈ a.toList ∧ sep ∈ b.toList := by
  have hlist : (a ++ "&" ++ b).toList = a.toList ++ '&' :: b.toList := by simp [String.toList]
  simp only [isValid_outcome_true_iff, IsERC1155, hlist]
  rw [composite_split_iff '_' (by decide), composite_split_iff '-' (by decide)]
  constructor
  · rintro (⟨ha, hb⟩ | ⟨ha, hb⟩)
    · exact ⟨Or.inl ha, Or.inl hb, '_', Or.inl rfl, composite_has_sep _ _ ha,
        composite_has_sep _ _ hb⟩
    · exact ⟨Or.inr ha, Or.inr hb, '-', Or.inr rfl, composite_has_sep _ _ ha,
        composite_has_sep _ _ hb⟩
  · rintro ⟨ha, hb, sep, hsep, hma, hmb⟩
    rcases ha with ha | ha <;> rcases hb with hb | hb
    · exact Or.inl ⟨ha, hb⟩
    · have h1 := composite_sep_unique _ sep _ ha hsep hma
      have h2 := composite_sep_unique _ sep _ hb hsep hmb
      rw [h1] at h2
      exact absurd h2 (by decide)
    · have h1 := composite_sep_unique _ sep _ ha hsep hma
      have h2 := composite_sep_unique _ sep _ hb hsep hmb
      rw [h1] at h2
      exact absurd h2 (by decide)
    · exact Or.inr ⟨ha, hb⟩

theorem splitChars_of_not_mem (sep : Char) :
    ∀ l : List Char, sep ∉ l → splitChars sep l = [l] := by
  intro l
  induction l with
  | nil => intro _; rfl
  | cons c t ih =>
    intro h
    simp only [List.mem_cons, not_or] at h
    have hc : ¬ c = sep := fun hc => h.1 hc.symm
    simp only [splitChars, hc, if_false, ih h.2]

theorem splitChars_append (sep : Char) (t : List Char) :
    ∀ l : List Char, sep ∉ l → splitChars sep (l ++ sep :: t) = l :: splitChars sep t := by
  intro l
  induction l with
  | nil => intro _; simp [splitChars]
  | cons c u ih =>
    intro h
    simp only [List.mem_cons, not_or] at h
    have hc : ¬ c = sep := fun hc => h.1 hc.symm
    rw [List.cons_append, splitChars, if_neg hc, ih h.2]

/-- Splitting a `&`-joined list of `&`-free pieces gives the pieces back. -/
theorem splitChars_intercalate :
    ∀ segs : List (List Char), segs ≠ [] → (∀ seg ∈ segs, '&' ∉ seg) →
      splitChars '&' (List.intercalate ['&'] segs) = segs := by
  intro segs
  induction segs with
  | nil => intro hne; exact absurd rfl hne
  | cons seg rest ih =>
    intro _ hfree
    cases rest with
    | nil =>
      simp only [List.intercalate, List.intersperse, List.flatten_cons, List.flatten_nil,
        List.append_nil]
      exact splitChars_of_not_mem '&' seg (hfree seg (List.mem_cons_self _ _))
    | cons r rs =>
      rw [intercalate_amp_cons, flatten_map_amp,
        splitChars_append '&' _ seg (hfree seg (List.mem_cons_self _ _)),
        ih (by simp) (fun t ht => hfree t (List.mem_cons_of_mem _ ht))]

theorem digits_no_sep (sep : Char) (hsep : sep = '_' ∨ sep = '-') (l : List Char)
    (h : isDigits l = true) : sep ∉ l := by
  intro hmem
  have := ((isDigits_iff l).1 h).2 sep hmem
  rcases hsep with rfl | rfl <;> exact absurd this (by decide)

/-- A segment splits at its separator into its two runs of digits. -/
theorem splitChars_segment (sep : Char) (hsep : sep = '_' ∨ sep = '-') (seg : List Char)
    (h : IsSegment sep seg) :
    ∃ p q, isDigits p = true ∧ isDigits q = true ∧ splitChars sep seg = [p, q] := by
  obtain ⟨a, b, ha, hb, rfl⟩ := h
  refine ⟨a, b, ha, hb, ?_⟩
  rw [splitChars_append sep b a (digits_no_sep sep hsep a ha),
    splitChars_of_not_mem sep b (digits_no_sep sep hsep b hb)]

theorem composite_pieces (sep : Char) (hsep : sep = '_' ∨ sep = '-') (s : List Char)
    (h : IsComposite sep s) :
    ∀ seg ∈ splitChars '&' s, ∃ p q : List Char, splitChars sep seg = [p, q] ∧
      ∃ vp vq : Nat, StrToBigInt (String.mk p) = (some (vp : Int), true) ∧
        StrToBigInt (String.mk q) = (some (vq : Int), true) := by
  obtain ⟨segs, hne, hsegs, rfl⟩ := h
  have hamp : sep ≠ '&' := by rcases hsep with rfl | rfl <;> decide
  rw [splitChars_intercalate segs hne (fun seg hseg => segment_no_amp sep hamp seg (hsegs seg hseg))]
  intro seg hseg
  obtain ⟨p, q, hp, hq, hsplit⟩ := splitChars_segment sep hsep seg (hsegs seg hseg)
  exact ⟨p, q, hsplit, decimalValue p, decimalValue q, SetString_of_isDigits p hp,
    SetString_of_isDigits q hq⟩

theorem composite_not_signed (sep : Char) (hsep : sep = '_' ∨ sep = '-') (s : List Char)
    (h : IsComposite sep s) : isSignedDecimal s = false := by
  obtain ⟨c, t, hs, hc⟩ := composite_head sep s h
  have hmem := composite_has_sep sep s h
  rw [hs] at hmem ⊢
  have hnm : c ≠ '-' := by
    intro hc2; rw [not_digit_of_sign c (Or.inr hc2)] at hc; exact absurd hc (by simp)
  have hnp : c ≠ '+' := by
    intro hc2; rw [not_digit_of_sign c (Or.inl hc2)] at hc; exact absurd hc (by simp)
  simp only [isSignedDecimal, hnm, hnp, or_self, if_false]
  cases hd : isDigits (c :: t) with
  | false => rfl
  | true => exact absurd hmem (digits_no_sep sep hsep _ hd)

/-- C17: every string `IsValidERC1155Format` accepts splits at `&` into
segments, each of which splits at the separator of the string (`_` or `-`) into
exactly two pieces, and `StrToBigInt` succeeds on each piece with a
non-negative value; `StrToBigInt` fails on the accepted string itself. -/
theorem C17_accepted_pieces_parse (s : String)
    (h : (IsValidERC1155Format s).2 = Outcome.returned true) :
    (∃ sep : Char, (sep = '_' ∨ sep = '-') ∧
      ∀ seg ∈ splitChars '&' s.toList, ∃ p q : List Char, splitChars sep seg = [p, q] ∧
        ∃ vp vq : Nat, StrToBigInt (String.mk p) = (some (vp : Int), true) ∧
          StrToBigInt (String.mk q) = (some (vq : Int), true)) ∧
    StrToBigInt s = (none, false) := by
  rcases (isValid_outcome_true_iff s).1 h with hc | hc
  · exact ⟨⟨'_', Or.inl rfl, composite_pieces '_' (Or.inl rfl) _ hc⟩,
      SetString_of_not_signed _ (composite_not_signed '_' (Or.inl rfl) _ hc)⟩
  · exact ⟨⟨'-', Or.inr rfl, composite_pieces '-' (Or.inr rfl) _ hc⟩,
      SetString_of_not_signed _ (composite_not_signed '-' (Or.inr rfl) _ hc)⟩

theorem C17_accepted_pieces_parse_witness :
    (∃ sep : Char, (sep = '_' ∨ sep = '-') ∧
      ∀ seg ∈ splitChars '&' "955_921&1_2".toList, ∃ p q : List Char,
        splitChars sep seg = [p, q] ∧
        ∃ vp vq : Nat, StrToBigInt (String.mk p) = (some (vp : Int), true) ∧
          StrToBigInt (String.mk q) = (some (vq : Int), true)) ∧
    StrToBigInt "955_921&1_2" = (none, false) :=
  C17_accepted_pieces_parse "955_921&1_2" (by decide)

/-- The pieces of an accepted string, computed. -/
theorem splitChars_example :
    splitChars '&' "955_921&1_2".toList = ["955_921".toList, "1_2".toList] ∧
    splitChars '_' "955_921".toList = ["955".toList, "921".toList] ∧
    StrToBigInt "955" = (some 955, true) ∧ StrToBigInt "921" = (some 921, true) ∧
    splitChars '&' [] = [[]] := by
  decide

end Vulcan
